/-
  Verification development for the creastat/pipeline graph runtime.

  Shallow embedding of the Go sources:
    - core/types.go, core event variants (src/unnamed/part_009)
    - core/stage.go, core/fanout.go
    - graph.go (PipelineGraph, edges, filters, builder)
    - the validator (ValidateGraph, detectCycles, checkReachability,
      validateTypeCompatibility)
    - pipeline.go (execution engine: streaming router, input-closure
      protocol, error draining, stage error/panic packaging,
      fan-out router contexts, barrier stage)

  Machine integers are modelled as Int/Nat, Go `error` values as
  `Option String` (none = nil), Go channels as lists (the buffered
  contents), and Go contexts as booleans (cancelled or not).  Stateful
  code is modelled by explicit state passing.  Goroutine schedules that
  matter are made explicit as sequences of atomic steps.
-/
import Mathlib

/-! ## Event taxonomy (core/types.go, unnamed/part_009) -/

/-- Go: `type EventType string`. -/
abbrev EventType := String

def EventTypeStatus : EventType := "status"
def EventTypeSTT : EventType := "stt"
def EventTypeLLM : EventType := "llm"
def EventTypeAudio : EventType := "audio"
def EventTypeAction : EventType := "action"
def EventTypeError : EventType := "error"
def EventTypeDone : EventType := "done"
def EventTypeServiceMessage : EventType := "service_message"

/-- Go: `const EventTypeWildcard EventType = "*"` (core/stage.go). -/
def EventTypeWildcard : EventType := "*"

/-- The closed set of event variants (unnamed/part_009).  Go `float64`
fields are modelled as `Float`, `[]byte` as `List UInt8`,
`map[string]any` / `map[string]string` payloads as association lists of
strings, and the `error` field of `ErrorEvent` as `Option String`
(`none` models a nil Go error). -/
inductive Event where
  | status (status target message : String) (details : List (String × String))
  | stt (text : String) (isFinal : Bool) (confidence : Float)
  | llm (delta content : String)
  | audio (data : List UInt8) (format : String)
  | action (actionId actionType target : String)
      (data : List (String × String)) (required : Bool)
  | error (cause : Option String) (retryable : Bool)
  | done (fullText : String) (tokensUsed : Int) (audioDuration : Float)
      (actionsCount : Int)
  | serviceMessage (messageType content : String)
      (localized : List (String × String))

/-- The `EventType()` method of each variant. -/
def Event.eventType : Event → EventType
  | .status _ _ _ _ => EventTypeStatus
  | .stt _ _ _ => EventTypeSTT
  | .llm _ _ => EventTypeLLM
  | .audio _ _ => EventTypeAudio
  | .action _ _ _ _ _ => EventTypeAction
  | .error _ _ => EventTypeError
  | .done _ _ _ _ => EventTypeDone
  | .serviceMessage _ _ _ => EventTypeServiceMessage

/-- Go type switch `event.(core.ErrorEvent)`. -/
def Event.isError : Event → Bool
  | .error _ _ => true
  | _ => false

/-- Go type switch `event.(core.DoneEvent)`. -/
def Event.isDone : Event → Bool
  | .done _ _ _ _ => true
  | _ => false

/-- The `Retryable` field of an `ErrorEvent`, `none` for other variants. -/
def Event.retryable : Event → Option Bool
  | .error _ r => some r
  | _ => none

/-- The `Error` field (cause) of an `ErrorEvent`. -/
def Event.cause : Event → Option (Option String)
  | .error c _ => some c
  | _ => none

/-! ## Stage and primitive configuration (core/stage.go, core/fanout.go) -/

/-- The validator-facing part of the `core.Stage` interface: the declared
input/output type sets (`InputTypes()` / `OutputTypes()`). -/
structure StageTypes where
  inputTypes : List EventType
  outputTypes : List EventType
deriving DecidableEq

/-- Go: `type ErrorPolicy string`. -/
abbrev ErrorPolicy := String

def ErrorPolicyCancelAll : ErrorPolicy := "cancel-all"
def ErrorPolicyIsolated : ErrorPolicy := "isolated"

/-- Go: `type MergeStrategy string`. -/
abbrev MergeStrategy := String

def MergeStrategyCollect : MergeStrategy := "collect"
def MergeStrategyLastOnly : MergeStrategy := "last-only"

/-- `core.BranchConfig`.  The branch stage is represented by its declared
type sets; branch behaviour is modelled separately where a claim needs
it. -/
structure BranchConfig where
  stage : StageTypes
  eventFilter : List EventType
deriving DecidableEq

/-- `core.FanOutConfig`. -/
structure FanOutConfig where
  errorPolicy : ErrorPolicy
  branches : List BranchConfig
deriving DecidableEq

/-- `core.BarrierConfig`. -/
structure BarrierConfig where
  upstreamCount : Int
  mergeStrategy : MergeStrategy
deriving DecidableEq

/-! ## Barrier stage (BarrierStage.Process, fanout_test.go lines 447-525)

The barrier reads its merged input until closed.  We model the
non-cancelled execution (every `ctx.Done()` check takes the default
branch): the input is the list of events received before closure, the
result is the pair (events sent to `out`, returned Go error). -/

/-- The zeroed consolidated `DoneEvent` the barrier emits. -/
def consolidatedDone : Event := .done "" 0 0 0

/-- `fmt.Errorf("barrier expected %d DoneEvents, got %d", ...)`. -/
def barrierMismatchMsg (expected : Int) (got : Nat) : String :=
  "barrier expected " ++ toString expected ++ " DoneEvents, got " ++
    toString got

/-- The event loop of `BarrierStage.Process`.  `doneCount` and the
error accumulator (`none` = `errorOccurred == false`; `some c` =
`errorOccurred == true` with `firstError = c`) mirror the Go locals.
After the loop: a recorded first error is returned as-is; otherwise the
done-count check runs and either fails or emits one consolidated
`DoneEvent`. -/
def barrierLoop (upstreamCount : Int) :
    List Event → Nat → Option (Option String) → List Event × Option String
  | [], doneCount, firstError =>
    match firstError with
    | some c => ([], c)
    | none =>
      if (doneCount : Int) ≠ upstreamCount then
        ([], some (barrierMismatchMsg upstreamCount doneCount))
      else ([consolidatedDone], none)
  | e :: rest, doneCount, firstError =>
    match e with
    | .error c r =>
      let acc := match firstError with
        | some c0 => some c0
        | none => some c
      let res := barrierLoop upstreamCount rest doneCount acc
      (.error c r :: res.1, res.2)
    | .done _ _ _ _ => barrierLoop upstreamCount rest (doneCount + 1) firstError
    | _ =>
      let res := barrierLoop upstreamCount rest doneCount firstError
      (e :: res.1, res.2)

/-- `BarrierStage.Process` on a fully drained, never-cancelled input. -/
def barrierProcess (upstreamCount : Int) (input : List Event) :
    List Event × Option String :=
  barrierLoop upstreamCount input 0 none

/-- Number of `DoneEvent`s in a list (what `doneCount` ends up as). -/
def countDone (l : List Event) : Nat := l.countP (fun e => e.isDone)

/-- The `Error` cause of the first `ErrorEvent` of the input (what
`firstError` ends up as when an error occurs). -/
def firstErrorCause (l : List Event) : Option String :=
  match l.find? (fun e => e.isError) with
  | some (.error c _) => c
  | _ => none

/-! ## Error draining (executeGraph, pipeline.go lines 128-139)

`executeGraph` waits for all workers, closes `errorChan`, then ranges
over it returning the first non-nil error.  The channel contents (in
push order) are modelled as a list of `Option String`. -/

/-- `for err := range errorChan { if err != nil { return err } }; return nil`. -/
def drainErrors : List (Option String) → Option String
  | [] => none
  | some e :: _ => some e
  | none :: rest => drainErrors rest

/-! ## Stage error / panic packaging (runStage, pipeline.go lines 159-205) -/

/-- Outcome of `node.Stage().Process(...)` inside `runStage`: normal
return, non-nil error return, or a recovered panic (with the panic
value and captured stack trace). -/
inductive StageOutcome where
  | ok
  | failed (err : String)
  | panicked (nodeName : String) (recovered : String) (stackTrace : String)

/-- The error message `fmt.Errorf("stage %s panicked: %v\nStack trace:\n%s", ...)`. -/
def panicErrMsg (nodeName recovered stackTrace : String) : String :=
  "stage " ++ nodeName ++ " panicked: " ++ recovered ++
    "\nStack trace:\n" ++ stackTrace

/-- The `ErrorEvent`s runStage itself pushes onto the node's `out`
buffer after `Process` returns (best-effort, racing cancellation; this
is the value sent when the send wins the race). -/
def runStageErrorEvents : StageOutcome → List Event
  | .ok => []
  | .failed err => [.error (some err) false]
  | .panicked nodeName recovered stackTrace =>
      [.error (some (panicErrMsg nodeName recovered stackTrace)) false]

/-! ## Fan-out router contexts (FanOutRouter, pipeline.go lines 303-468)

`NewFanOutRouter` creates `fr.ctx, fr.cancel = context.WithCancel(Background)`.
`Route` creates `mergedCtx, cancel = context.WithCancel(ctx)` from the
*caller's* context only, and passes `mergedCtx` to every branch and to
the distributor.  `handleBranchError` calls `fr.cancel()` under the
cancel-all policy, which cancels `fr.ctx` - a context nothing inside
`Route` observes.  Contexts are modelled by their cancelled flag. -/

structure FanOutCtxState where
  /-- `ctx` passed by the caller of `Route` is cancelled. -/
  callerCancelled : Bool
  /-- `Route`'s own `cancel` for `mergedCtx` was called (only deferred
  to `Route`'s exit in the source). -/
  routeCancelCalled : Bool
  /-- `fr.cancel()` was called, cancelling `fr.ctx`. -/
  routerCancelled : Bool
deriving DecidableEq

/-- Whether `mergedCtx.Done()` fires: `mergedCtx` descends from the
caller's context and `Route`'s own cancel only - not from `fr.ctx`.
This is the context every branch's `Process` and the distributor
observe. -/
def mergedCtxDone (s : FanOutCtxState) : Bool :=
  s.callerCancelled || s.routeCancelCalled

/-- `handleBranchError` (pipeline.go lines 443-449). -/
def handleBranchError (policy : ErrorPolicy) (s : FanOutCtxState) :
    FanOutCtxState :=
  if policy = ErrorPolicyCancelAll then { s with routerCancelled := true }
  else s

/-- Error collection at the end of `Route` (lines 363-377): the branch
errors (in channel order) are filtered for non-nil and the first one is
returned. -/
def routeResult (branchErrors : List (Option String)) : Option String :=
  (branchErrors.filterMap id).head?

/-- `FanOutRouter.shouldForwardEvent` (pipeline.go lines 453-468). -/
def fanOutShouldForward (branch : BranchConfig) (e : Event) : Bool :=
  if branch.eventFilter.length = 0 then true
  else branch.eventFilter.contains e.eventType

/-! ## Graph model (graph.go)

`PipelineGraph.nodes` is a Go map from name to node; we model it as an
insertion-ordered association list (one fixed iteration order of the Go
map).  `graphNode.outputs` / `inputs` are the per-node edge slices; since
`AddEdge` appends to both the global construction order and the per-node
slices, filtering the global edge list by endpoint reproduces them. -/

/-- The per-node data of `graphNode` (besides the edge slices): the
stage (nil for synthetic fan-out/barrier nodes) and the primitive
configs. -/
structure GNodeData where
  stage : Option StageTypes
  fanOut : Option FanOutConfig
  barrier : Option BarrierConfig
deriving DecidableEq

/-- `graphEdge`: endpoints by name plus the optional event filter.
`none` models a nil `eventFilter` map (forward all); `some f` models the
map built from a non-empty filter slice. -/
structure GEdge where
  fromName : String
  toName : String
  eventFilter : Option (List EventType)
deriving DecidableEq

structure PipelineGraph where
  nodes : List (String × GNodeData)
  edges : List GEdge
  entryNode : String
  exitNodes : List String
deriving DecidableEq

/-- `NewPipelineGraph`. -/
def NewPipelineGraph : PipelineGraph := ⟨[], [], "", []⟩

/-- `pg.nodes[name]` lookup. -/
def getNodeData (g : PipelineGraph) (name : String) : Option GNodeData :=
  (g.nodes.find? (fun p => p.1 = name)).map (fun p => p.2)

/-- `PipelineGraph.AddNode` (graph.go lines 63-78). -/
def AddNode (g : PipelineGraph) (name : String) (stage : Option StageTypes)
    (fanOut : Option FanOutConfig) (barrier : Option BarrierConfig) :
    Except String PipelineGraph :=
  if (getNodeData g name).isSome then
    .error ("node \"" ++ name ++ "\" already exists in graph")
  else
    .ok { g with nodes := g.nodes ++ [(name, ⟨stage, fanOut, barrier⟩)] }

/-- `PipelineGraph.AddEdge` (graph.go lines 81-111): both endpoints must
exist; a non-empty filter slice becomes the filter map, an empty one a
nil map. -/
def AddEdge (g : PipelineGraph) (fromName toName : String)
    (eventFilter : List EventType) : Except String PipelineGraph :=
  if (getNodeData g fromName).isNone then
    .error ("source node \"" ++ fromName ++ "\" does not exist")
  else if (getNodeData g toName).isNone then
    .error ("destination node \"" ++ toName ++ "\" does not exist")
  else
    .ok { g with
      edges := g.edges ++
        [⟨fromName, toName,
          if eventFilter.length > 0 then some eventFilter else none⟩] }

/-- `PipelineGraph.SetEntryNode`. -/
def SetEntryNode (g : PipelineGraph) (name : String) :
    Except String PipelineGraph :=
  if (getNodeData g name).isNone then
    .error ("entry node \"" ++ name ++ "\" does not exist")
  else .ok { g with entryNode := name }

/-- `PipelineGraph.AddExitNode`. -/
def AddExitNode (g : PipelineGraph) (name : String) :
    Except String PipelineGraph :=
  if (getNodeData g name).isNone then
    .error ("exit node \"" ++ name ++ "\" does not exist")
  else .ok { g with exitNodes := g.exitNodes ++ [name] }

/-- `graphNode.Outputs()`: the outgoing edges of `name`, in insertion
order. -/
def Outputs (g : PipelineGraph) (name : String) : List GEdge :=
  g.edges.filter (fun e => e.fromName = name)

/-- `graphNode.Inputs()`: the incoming edges of `name`. -/
def Inputs (g : PipelineGraph) (name : String) : List GEdge :=
  g.edges.filter (fun e => e.toName = name)

/-- `PipelineGraph.GetEntryNode` (nil when unset or missing). -/
def GetEntryNode (g : PipelineGraph) : Option (String × GNodeData) :=
  if g.entryNode = "" then none
  else g.nodes.find? (fun p => p.1 = g.entryNode)

/-- `graphEdge.ShouldForwardEvent` (graph.go lines 207-215). -/
def ShouldForwardEvent (e : GEdge) (eventType : EventType) : Bool :=
  match e.eventFilter with
  | none => true
  | some f => f.contains eventType

/-- Well-formedness established by the construction API: node names are
unique (`AddNode` rejects duplicates) and every edge references existing
nodes (`AddEdge` checks both endpoints). -/
def wfGraph (g : PipelineGraph) : Bool :=
  (g.nodes.map Prod.fst).Nodup ∧
    g.edges.all (fun e =>
      (getNodeData g e.fromName).isSome && (getNodeData g e.toName).isSome)

/-! ## Builder (GraphBuilder, fanout_test.go embedded builder source)

`nodeConfigs` is a Go map `map[string]*nodeConfig`; map assignment
overwrites, which we model with replace-or-append on an association
list. -/

structure NodeConfig where
  stage : Option StageTypes
  fanOut : Option FanOutConfig
  barrier : Option BarrierConfig
deriving DecidableEq

structure EdgeConfig where
  fromName : String
  toName : String
  eventFilter : List EventType
deriving DecidableEq

structure GraphBuilder where
  nodeConfigs : List (String × NodeConfig)
  edges : List EdgeConfig
  entryNode : String
  exitNodes : List String
deriving DecidableEq

def NewBuilder : GraphBuilder := ⟨[], [], "", []⟩

/-- Go map assignment `m[name] = c`: replace the binding if present,
otherwise add it. -/
def mapAssign (l : List (String × NodeConfig)) (name : String)
    (c : NodeConfig) : List (String × NodeConfig) :=
  match l with
  | [] => [(name, c)]
  | (n, c') :: rest =>
    if n = name then (n, c) :: rest else (n, c') :: mapAssign rest name c

/-- `GraphBuilder.AddStage`. -/
def AddStage (b : GraphBuilder) (name : String) (stage : StageTypes) :
    GraphBuilder :=
  { b with nodeConfigs := mapAssign b.nodeConfigs name ⟨some stage, none, none⟩ }

/-- `GraphBuilder.AddFanOut` (stage nil: fan-out nodes have no stage). -/
def AddFanOut (b : GraphBuilder) (name : String) (config : FanOutConfig) :
    GraphBuilder :=
  { b with nodeConfigs := mapAssign b.nodeConfigs name ⟨none, some config, none⟩ }

/-- `GraphBuilder.AddBarrier`. -/
def AddBarrier (b : GraphBuilder) (name : String) (config : BarrierConfig) :
    GraphBuilder :=
  { b with nodeConfigs := mapAssign b.nodeConfigs name ⟨none, none, some config⟩ }

/-- `GraphBuilder.Connect`. -/
def Connect (b : GraphBuilder) (fromName toName : String)
    (eventFilter : List EventType := []) : GraphBuilder :=
  { b with edges := b.edges ++ [⟨fromName, toName, eventFilter⟩] }

/-- `GraphBuilder.SetEntryNode`. -/
def SetEntryNodeB (b : GraphBuilder) (name : String) : GraphBuilder :=
  { b with entryNode := name }

/-- `GraphBuilder.AddExitNode`. -/
def AddExitNodeB (b : GraphBuilder) (name : String) : GraphBuilder :=
  { b with exitNodes := b.exitNodes ++ [name] }

/-! ## Validator (unnamed/part_006)

`hasCycle` / `dfsReachability` are recursive in Go, terminating because
visited nodes are never re-entered.  We embed them with an explicit fuel
parameter consumed on every call (structural recursion, so the
definitions compute by kernel reduction); a sufficiency lemma shows the
fuel chosen by the driver functions is never exhausted, so the fuelled
functions agree with the Go recursion. -/

structure ValidationError where
  message : String
  details : String
deriving DecidableEq

/-- `ValidationError.Error()`. -/
def ValidationError.errorString (e : ValidationError) : String :=
  if e.details ≠ "" then e.message ++ ": " ++ e.details else e.message

/-- All names a DFS can ever visit: the graph's node names plus every
edge target (deduplicated).  Used only to size the fuel. -/
def univNames (g : PipelineGraph) : List String :=
  (g.nodes.map Prod.fst ++ g.edges.map GEdge.toName).dedup

/-- Fuel for the cycle DFS: each call consumes one unit; see
`cycleGo_fuel_sufficient`. -/
def cycleFuel (g : PipelineGraph) : Nat :=
  ((univNames g).length + 1) * (g.edges.length + 2)

/-- A pending activation of the cycle DFS: either entering a node
(`hasCycle(node)` marks it visited and gray) or scanning the remainder
of a node's outgoing edge slice. -/
inductive CycleCall where
  | visit (node : String) (visited recStack : List String)
  | scan (es : List GEdge) (visited recStack : List String)

/-- The body of `hasCycle` (unnamed/part_006 lines 67-86) with explicit
`visited`/`recStack` state and fuel.  Returns `(cycleFound, visited,
recStack)`; `none` only on fuel exhaustion.  On entering a node it is
marked visited and pushed on the recursion stack; each out-edge whose
target is unvisited is entered recursively; a visited target still on
the recursion stack is a back edge; on normal exit the node is removed
from the recursion stack. -/
def cycleGo (g : PipelineGraph) : Nat → CycleCall →
    Option (Bool × List String × List String)
  | 0, _ => none
  | fuel + 1, .visit node visited recStack =>
    match cycleGo g fuel (.scan (Outputs g node) (node :: visited)
        (node :: recStack)) with
    | none => none
    | some (true, v, r) => some (true, v, r)
    | some (false, v, r) => some (false, v, r.erase node)
  | _ + 1, .scan [] visited recStack => some (false, visited, recStack)
  | fuel + 1, .scan (e :: rest) visited recStack =>
    if e.toName ∈ visited then
      if e.toName ∈ recStack then some (true, visited, recStack)
      else cycleGo g fuel (.scan rest visited recStack)
    else
      match cycleGo g fuel (.visit e.toName visited recStack) with
      | none => none
      | some (true, v, r) => some (true, v, r)
      | some (false, v, r) => cycleGo g fuel (.scan rest v r)

/-- `hasCycle(node, visited, recStack)`. -/
def hasCycle (g : PipelineGraph) (node : String)
    (visited recStack : List String) :
    Option (Bool × List String × List String) :=
  cycleGo g (cycleFuel g) (.visit node visited recStack)

/-- The loop of `detectCycles` (lines 48-63): iterate the node list,
running the DFS from every still-unvisited node, threading the shared
`visited`/`recStack` maps. -/
def detectCyclesLoop (g : PipelineGraph) :
    List (String × GNodeData) → List String → List String → Option Bool
  | [], _, _ => some false
  | (n, _) :: rest, visited, recStack =>
    if n ∈ visited then detectCyclesLoop g rest visited recStack
    else
      match hasCycle g n visited recStack with
      | none => none
      | some (true, _, _) => some true
      | some (false, v, r) => detectCyclesLoop g rest v r

/-- `detectCycles`. -/
def detectCycles (g : PipelineGraph) : Option ValidationError :=
  match detectCyclesLoop g g.nodes [] [] with
  | some true =>
    some ⟨"graph validation failed", "cycle detected in pipeline graph"⟩
  | some false => none
  | none => some ⟨"graph validation failed", "cycle detection fuel exhausted"⟩

/-- Fuel for the reachability DFS. -/
def reachFuel (g : PipelineGraph) : Nat :=
  ((univNames g).length + 1) * (g.edges.length + 2)

/-- A pending activation of `dfsReachability`. -/
inductive ReachCall where
  | visit (node : String) (reachable : List String)
  | scan (es : List GEdge) (reachable : List String)

/-- `dfsReachability` (lines 113-125) with fuel: skip if already marked,
else mark and recurse into every out-edge target. -/
def reachGo (g : PipelineGraph) : Nat → ReachCall → Option (List String)
  | 0, _ => none
  | fuel + 1, .visit node reachable =>
    if node ∈ reachable then some reachable
    else reachGo g fuel (.scan (Outputs g node) (node :: reachable))
  | _ + 1, .scan [] reachable => some reachable
  | fuel + 1, .scan (e :: rest) reachable =>
    match reachGo g fuel (.visit e.toName reachable) with
    | none => none
    | some r => reachGo g fuel (.scan rest r)

/-- `dfsReachability(node, reachable)` from the entry. -/
def dfsReachability (g : PipelineGraph) (node : String)
    (reachable : List String) : Option (List String) :=
  reachGo g (reachFuel g) (.visit node reachable)

/-- `fmt.Sprintf("stage %q is unreachable from entry node", name)`. -/
def unreachableMsg (name : String) : String :=
  "stage \"" ++ name ++ "\" is unreachable from entry node"

/-- `checkReachability` (lines 89-110): DFS from the entry, then fail on
the first node (in map order) that was not marked. -/
def checkReachability (g : PipelineGraph) : Option ValidationError :=
  match GetEntryNode g with
  | none => some ⟨"graph validation failed", "no entry node defined"⟩
  | some en =>
    match dfsReachability g en.1 [] with
    | none =>
      some ⟨"graph validation failed", "reachability fuel exhausted"⟩
    | some reachable =>
      match g.nodes.find? (fun p => ¬ p.1 ∈ reachable) with
      | some p => some ⟨"graph validation failed", unreachableMsg p.1⟩
      | none => none

/-- Go `%v` rendering of a `[]EventType` slice. -/
def goTypeList (ts : List EventType) : String :=
  "[" ++ String.intercalate " " ts ++ "]"

/-- The type-incompatibility message (lines 166-172). -/
def incompatMsg (u : String) (outs : List EventType) (v : String)
    (ins : List EventType) : String :=
  "incompatible types between stage \"" ++ u ++ "\" (outputs: " ++
    goTypeList outs ++ ") and stage \"" ++ v ++ "\" (inputs: " ++
    goTypeList ins ++ ")"

/-- `hasCompatibleType` (lines 183-219): build the forwarded set (all
upstream types when the filter map is nil, else the filter-passing
ones); accept if some downstream type is forwarded or is the wildcard
(the source checks the wildcard in the scan loop and once more in a
second loop; `List.any` keeps the same early-exit semantics). -/
def hasCompatibleType (upstreamTypes downstreamTypes : List EventType)
    (filter : Option (List EventType)) : Bool :=
  let forwardedTypes :=
    match filter with
    | none => upstreamTypes
    | some f => upstreamTypes.filter (fun t => f.contains t)
  (downstreamTypes.any (fun d =>
      forwardedTypes.contains d || d = EventTypeWildcard)) ||
    (downstreamTypes.any (fun d => d = EventTypeWildcard))

/-- The per-edge scan of `validateTypeCompatibility` for one source node
with declared `outputTypes`: skip synthetic downstreams, accept
empty-input (accept-all) and empty-output (produces-all) declarations,
else require `hasCompatibleType`. -/
def vtcEdges (g : PipelineGraph) (n : String) (outputTypes : List EventType) :
    List GEdge → Option ValidationError
  | [] => none
  | e :: rest =>
    match getNodeData g e.toName with
    | none => vtcEdges g n outputTypes rest
    | some dnd =>
      match dnd.stage with
      | none => vtcEdges g n outputTypes rest
      | some dst =>
        if dst.inputTypes.length = 0 then vtcEdges g n outputTypes rest
        else if outputTypes.length = 0 then vtcEdges g n outputTypes rest
        else if hasCompatibleType outputTypes dst.inputTypes e.eventFilter then
          vtcEdges g n outputTypes rest
        else
          some ⟨"graph validation failed",
            incompatMsg n outputTypes e.toName dst.inputTypes⟩

/-- The node loop of `validateTypeCompatibility` (lines 131-180): skip
synthetic nodes, check each outgoing edge. -/
def vtcLoop (g : PipelineGraph) :
    List (String × GNodeData) → Option ValidationError
  | [] => none
  | (n, nd) :: rest =>
    match nd.stage with
    | none => vtcLoop g rest
    | some st =>
      match vtcEdges g n st.outputTypes (Outputs g n) with
      | some err => some err
      | none => vtcLoop g rest

/-- `validateTypeCompatibility`. -/
def validateTypeCompatibility (g : PipelineGraph) : Option ValidationError :=
  vtcLoop g g.nodes

/-- `ValidateGraph` (lines 22-47): entry present, then cycles, then
reachability, then type compatibility; abort on the first failure. -/
def ValidateGraph (g : PipelineGraph) : Option ValidationError :=
  match GetEntryNode g with
  | none => some ⟨"graph validation failed", "no entry node defined"⟩
  | some _ =>
    match detectCycles g with
    | some err => some err
    | none =>
      match checkReachability g with
      | some err => some err
      | none => validateTypeCompatibility g

/-- `GraphBuilder.Build` (fanout_test.go builder source): requires a
node and an entry, materializes nodes then edges then entry/exits, runs
the validator, and returns the pipeline's graph. -/
def Build (b : GraphBuilder) : Except String PipelineGraph :=
  if b.nodeConfigs.length = 0 then
    .error "pipeline must have at least one stage"
  else if b.entryNode = "" then
    .error "entry node must be set"
  else do
    let g ← b.nodeConfigs.foldlM
      (fun g p =>
        (AddNode g p.1 p.2.stage p.2.fanOut p.2.barrier).mapError
          (fun e => "failed to add node \"" ++ p.1 ++ "\": " ++ e))
      NewPipelineGraph
    let g ← b.edges.foldlM
      (fun g ec =>
        (AddEdge g ec.fromName ec.toName ec.eventFilter).mapError
          (fun e => "failed to add edge from \"" ++ ec.fromName ++
            "\" to \"" ++ ec.toName ++ "\": " ++ e))
      g
    let g ← (SetEntryNode g b.entryNode).mapError
      (fun e => "failed to set entry node: " ++ e)
    let g ← b.exitNodes.foldlM
      (fun g x =>
        (AddExitNode g x).mapError
          (fun e => "failed to add exit node \"" ++ x ++ "\": " ++ e))
      g
    match ValidateGraph g with
    | some ve => .error ("graph validation failed: " ++ ve.errorString)
    | none => .ok g

/-! ## Streaming router (routeOutputsStreaming, pipeline.go lines 210-265)

Per-node buffered channels have capacity 100 (`make(chan core.Event,
100)`).  Buffers are modelled as lists of queued events indexed by node
name.  We model the execution with the context not cancelled, so the
`select` on a delivery reduces to: send if the buffer has space,
otherwise take the `default:` branch and skip the event. -/

/-- Buffer capacity used by `executeGraph` for every node buffer. -/
def nodeBufferCap : Nat := 100

/-- One delivery attempt:
`select { case <-ctx.Done(): ...; case input <- event: ; default: }`
with the context alive - a non-blocking send that drops the event when
the buffer is full. -/
def sendNonBlocking (buf : List Event) (cap : Nat) (e : Event) :
    List Event :=
  if buf.length < cap then buf ++ [e] else buf

/-- The inner edge loop of `routeOutputsStreaming` for one event read
from node `n`'s output: for every outgoing edge whose filter accepts the
event's type, attempt the non-blocking send into the downstream node's
input buffer. -/
def routeEventStep (g : PipelineGraph) (n : String)
    (bufs : String → List Event) (e : Event) : String → List Event :=
  (Outputs g n).foldl
    (fun bufs edge =>
      if ShouldForwardEvent edge e.eventType then
        fun x =>
          if x = edge.toName then
            sendNonBlocking (bufs edge.toName) nodeBufferCap e
          else bufs x
      else bufs)
    bufs

/-! ## Input-closure protocol (routeOutputsStreaming, lines 236-264)

After a node's `out` drains, its router closes each downstream input iff
every upstream `done` signal of that downstream node is set; the close
is guarded by the execution-state mutex and by a `select` probing the
*downstream node's* `done` channel.  We model per-node `done` flags and
count how many times each input channel is closed (in Go, a second
`close` panics). -/

structure CloseState where
  /-- `nodeState.done` is closed for this node (its stage worker exited). -/
  done : String → Bool
  /-- How many times `close(nodeState.input)` has executed for this node. -/
  inputCloseCount : String → Nat

/-- `allUpstreamDone`: every upstream `done` channel of `d` is closed. -/
def allUpstreamDone (g : PipelineGraph) (st : CloseState) (d : String) :
    Bool :=
  (Inputs g d).all (fun e => st.done e.fromName)

/-- The closure phase of node `n`'s router, run after its output
drained: for each downstream node with all upstreams done, take the
mutex and, unless the *downstream's* `done` channel is already closed
(the source's guard), close its input channel. -/
def closeDownstreamInputs (g : PipelineGraph) (n : String)
    (st : CloseState) : CloseState :=
  (Outputs g n).foldl
    (fun st edge =>
      let d := edge.toName
      if allUpstreamDone g st d then
        if st.done d then st
        else
          { st with inputCloseCount := fun x =>
              if x = d then st.inputCloseCount d + 1
              else st.inputCloseCount x }
      else st)
    st

/-! ## Semantic graph predicates (for the validator claims) -/

/-- There is an edge from `u` to `v` in `g`. -/
def hasEdge (g : PipelineGraph) (u v : String) : Prop :=
  ∃ e ∈ g.edges, e.fromName = u ∧ e.toName = v

/-- Reflexive-transitive reachability along edges. -/
inductive Reach (g : PipelineGraph) : String → String → Prop
  | refl (u : String) : Reach g u u
  | step {u v w : String} : hasEdge g u v → Reach g v w → Reach g u w

/-- The graph contains a directed cycle: an edge `u → v` together with a
path back from `v` to `u`. -/
def Cyclic (g : PipelineGraph) : Prop :=
  ∃ u v, hasEdge g u v ∧ Reach g v u

/-- A reverse-finish-order list is topologically sorted: every edge out
of an element lands strictly later in the list. -/
def Topo (g : PipelineGraph) : List String → Prop
  | [] => True
  | a :: rest => (∀ w, hasEdge g a w → w ∈ rest) ∧ Topo g rest

/-! ## Barrier lemmas -/

/-- Once `errorOccurred` is set with first error `c`, the rest of the
loop forwards everything but `DoneEvent`s and finally returns `c`. -/
theorem barrierLoop_after_error (n : Int) :
    ∀ (input : List Event) (dc : Nat) (c : Option String),
      barrierLoop n input dc (some c) =
        (input.filter (fun e => !e.isDone), c) := by
  intro input
  induction input with
  | nil => intro dc c; simp [barrierLoop]
  | cons e rest ih =>
    intro dc c
    cases e <;> simp [barrierLoop, Event.isDone, List.filter_cons, ih]

/-- On an error-free input the loop forwards all non-`Done` events and
finishes with the done-count check. -/
theorem barrierLoop_no_error (n : Int) :
    ∀ (input : List Event) (dc : Nat),
      input.all (fun e => !e.isError) = true →
      barrierLoop n input dc none =
        (if ((dc + countDone input : Nat) : Int) = n then
          (input.filter (fun e => !e.isDone) ++ [consolidatedDone], none)
        else
          (input.filter (fun e => !e.isDone),
            some (barrierMismatchMsg n (dc + countDone input)))) := by
  intro input
  induction input with
  | nil =>
    intro dc _
    by_cases hc : ((dc : Nat) : Int) = n <;>
      simp [barrierLoop, countDone, hc]
  | cons e rest ih =>
    intro dc hall
    simp only [List.all_cons, Bool.and_eq_true] at hall
    cases e with
    | error c r => simp [Event.isError] at hall
    | done a b c d =>
      have hcd : dc + countDone (Event.done a b c d :: rest) =
          dc + 1 + countDone rest := by
        simp [countDone, List.countP_cons, Event.isDone]
        omega
      simp only [barrierLoop]
      rw [ih (dc + 1) hall.2, hcd]
      split_ifs <;> simp [List.filter_cons, Event.isDone]
    | status s t m d =>
      have hcd : dc + countDone (Event.status s t m d :: rest) =
          dc + countDone rest := by
        simp [countDone, List.countP_cons, Event.isDone]
      simp only [barrierLoop]
      rw [ih dc hall.2, hcd]
      split_ifs <;> simp [List.filter_cons, Event.isDone]
    | stt a b c =>
      have hcd : dc + countDone (Event.stt a b c :: rest) =
          dc + countDone rest := by
        simp [countDone, List.countP_cons, Event.isDone]
      simp only [barrierLoop]
      rw [ih dc hall.2, hcd]
      split_ifs <;> simp [List.filter_cons, Event.isDone]
    | llm a b =>
      have hcd : dc + countDone (Event.llm a b :: rest) =
          dc + countDone rest := by
        simp [countDone, List.countP_cons, Event.isDone]
      simp only [barrierLoop]
      rw [ih dc hall.2, hcd]
      split_ifs <;> simp [List.filter_cons, Event.isDone]
    | audio a b =>
      have hcd : dc + countDone (Event.audio a b :: rest) =
          dc + countDone rest := by
        simp [countDone, List.countP_cons, Event.isDone]
      simp only [barrierLoop]
      rw [ih dc hall.2, hcd]
      split_ifs <;> simp [List.filter_cons, Event.isDone]
    | action a b c d e =>
      have hcd : dc + countDone (Event.action a b c d e :: rest) =
          dc + countDone rest := by
        simp [countDone, List.countP_cons, Event.isDone]
      simp only [barrierLoop]
      rw [ih dc hall.2, hcd]
      split_ifs <;> simp [List.filter_cons, Event.isDone]
    | serviceMessage a b c =>
      have hcd : dc + countDone (Event.serviceMessage a b c :: rest) =
          dc + countDone rest := by
        simp [countDone, List.countP_cons, Event.isDone]
      simp only [barrierLoop]
      rw [ih dc hall.2, hcd]
      split_ifs <;> simp [List.filter_cons, Event.isDone]

/-- Events surviving the barrier's filter are never `DoneEvent`s. -/
theorem countP_isDone_filter (l : List Event) :
    (l.filter (fun e => !e.isDone)).countP (fun e => e.isDone) = 0 := by
  rw [List.countP_eq_zero]
  intro a ha
  have h2 := List.of_mem_filter ha
  simp only [Bool.not_eq_true'] at h2
  simp [h2]

/-- With at least one `ErrorEvent` in the remaining input, the loop
forwards all non-`Done` events and returns the first error cause. -/
theorem barrierLoop_first_error (n : Int) :
    ∀ (input : List Event) (dc : Nat),
      input.any (fun e => e.isError) = true →
      barrierLoop n input dc none =
        (input.filter (fun e => !e.isDone), firstErrorCause input) := by
  intro input
  induction input with
  | nil => intro dc h; simp at h
  | cons e rest ih =>
    intro dc hany
    cases e with
    | error c r =>
      simp only [barrierLoop]
      rw [barrierLoop_after_error n rest dc c]
      simp [firstErrorCause, List.find?_cons, Event.isError,
        List.filter_cons, Event.isDone]
    | done a b c d =>
      have hrest : rest.any (fun e => e.isError) = true := by
        simpa [Event.isError] using hany
      simp only [barrierLoop]
      rw [ih (dc + 1) hrest]
      simp [firstErrorCause, List.find?_cons, Event.isError,
        List.filter_cons, Event.isDone]
    | status s t m d =>
      have hrest : rest.any (fun e => e.isError) = true := by
        simpa [Event.isError] using hany
      simp only [barrierLoop]
      rw [ih dc hrest]
      simp [firstErrorCause, List.find?_cons, Event.isError,
        List.filter_cons, Event.isDone]
    | stt a b c =>
      have hrest : rest.any (fun e => e.isError) = true := by
        simpa [Event.isError] using hany
      simp only [barrierLoop]
      rw [ih dc hrest]
      simp [firstErrorCause, List.find?_cons, Event.isError,
        List.filter_cons, Event.isDone]
    | llm a b =>
      have hrest : rest.any (fun e => e.isError) = true := by
        simpa [Event.isError] using hany
      simp only [barrierLoop]
      rw [ih dc hrest]
      simp [firstErrorCause, List.find?_cons, Event.isError,
        List.filter_cons, Event.isDone]
    | audio a b =>
      have hrest : rest.any (fun e => e.isError) = true := by
        simpa [Event.isError] using hany
      simp only [barrierLoop]
      rw [ih dc hrest]
      simp [firstErrorCause, List.find?_cons, Event.isError,
        List.filter_cons, Event.isDone]
    | action a b c d e =>
      have hrest : rest.any (fun e => e.isError) = true := by
        simpa [Event.isError] using hany
      simp only [barrierLoop]
      rw [ih dc hrest]
      simp [firstErrorCause, List.find?_cons, Event.isError,
        List.filter_cons, Event.isDone]
    | serviceMessage a b c =>
      have hrest : rest.any (fun e => e.isError) = true := by
        simpa [Event.isError] using hany
      simp only [barrierLoop]
      rw [ih dc hrest]
      simp [firstErrorCause, List.find?_cons, Event.isError,
        List.filter_cons, Event.isDone]

/-- C4: on an error-free input that closes without cancellation, the
barrier forwards exactly the non-`Done` events; it appends exactly one
consolidated `Done` and succeeds iff the number of consumed `Done`s
equals `UpstreamCount`, and otherwise emits no `Done` and fails with
`"barrier expected N DoneEvents, got M"`. -/
theorem barrier_consolidates_done (n : Int) (input : List Event)
    (h : input.all (fun e => !e.isError) = true) :
    barrierProcess n input =
      (if ((countDone input : Nat) : Int) = n then
        (input.filter (fun e => !e.isDone) ++ [consolidatedDone], none)
      else
        (input.filter (fun e => !e.isDone),
          some (barrierMismatchMsg n (countDone input)))) ∧
    ((barrierProcess n input).1.countP (fun e => e.isDone) = 1 ↔
      ((countDone input : Nat) : Int) = n) := by
  have h1 : barrierProcess n input =
      (if ((0 + countDone input : Nat) : Int) = n then
        (input.filter (fun e => !e.isDone) ++ [consolidatedDone], none)
      else
        (input.filter (fun e => !e.isDone),
          some (barrierMismatchMsg n (0 + countDone input)))) :=
    barrierLoop_no_error n input 0 h
  simp only [Nat.zero_add] at h1
  refine ⟨h1, ?_⟩
  rw [h1]
  by_cases hc : ((countDone input : Nat) : Int) = n
  · simp only [hc, if_pos]
    simp [List.countP_append, countP_isDone_filter, consolidatedDone,
      Event.isDone, List.countP_cons]
  · simp only [hc, if_neg, if_false]
    simp [countP_isDone_filter, hc]

/-- Witness input for C4: two upstreams, both `Done`s arrive. -/
def barrierWitnessInput : List Event :=
  [Event.status "listening" "user" "" [], Event.llm "hi" "",
    Event.done "" 0 0 0, Event.done "" 0 0 0]

theorem barrier_consolidates_done_witness :
    barrierProcess 2 barrierWitnessInput =
      ([Event.status "listening" "user" "" [], Event.llm "hi" "",
        consolidatedDone], none) := by
  have h := (barrier_consolidates_done 2 barrierWitnessInput (by decide)).1
  rw [h, if_pos (by decide)]
  rfl

/-- C7: if the input contains an `ErrorEvent`, the barrier forwards
every non-`Done` event (the first `Error` included), keeps draining, and
returns the first error's cause without any done-count requirement. -/
theorem barrier_fail_fast_on_error (n : Int) (input : List Event)
    (h : input.any (fun e => e.isError) = true) :
    barrierProcess n input =
      (input.filter (fun e => !e.isDone), firstErrorCause input) :=
  barrierLoop_first_error n input 0 h

/-- Witness input for C7 (scenario 6 of the spec): an `Error` followed
by `Done`s whose count does not matter. -/
def barrierErrorWitnessInput : List Event :=
  [Event.status "listening" "user" "" [],
    Event.error (some "branch1 failed") false,
    Event.done "" 0 0 0, Event.done "" 0 0 0]

theorem barrier_fail_fast_on_error_witness :
    barrierProcess 3 barrierErrorWitnessInput =
      ([Event.status "listening" "user" "" [],
        Event.error (some "branch1 failed") false],
        some "branch1 failed") := by
  rw [barrier_fail_fast_on_error 3 barrierErrorWitnessInput (by decide)]
  rfl

/-- C2: `executeGraph` drains the error channel and returns the first
non-nil error pushed by any stage worker, and nil (success) when no
stage failed. -/
theorem executeGraph_returns_first_error (errs : List (Option String)) :
    drainErrors errs = (errs.filterMap id).head? := by
  induction errs with
  | nil => rfl
  | cons e rest ih =>
    cases e with
    | none => simpa [drainErrors, List.filterMap_cons] using ih
    | some x => simp [drainErrors, List.filterMap_cons]

/-- C10: every `ErrorEvent` the engine itself synthesizes in `runStage`
(packaging a non-nil stage error or a recovered panic) carries
`Retryable = false`. -/
theorem engine_error_events_not_retryable (o : StageOutcome) (e : Event)
    (h : e ∈ runStageErrorEvents o) : e.retryable = some false := by
  cases o with
  | ok => simp [runStageErrorEvents] at h
  | failed err =>
    simp only [runStageErrorEvents, List.mem_singleton] at h
    subst h; rfl
  | panicked nodeName recovered stackTrace =>
    simp only [runStageErrorEvents, List.mem_singleton] at h
    subst h; rfl

theorem engine_error_events_not_retryable_witness :
    (Event.error (some "boom") false).retryable = some false :=
  engine_error_events_not_retryable (.failed "boom") _ (by simp [runStageErrorEvents])

/-! ## Concrete graphs for the router and closure-protocol claims -/

/-- A plain stage node datum (declares no types). -/
def plainNode : GNodeData := ⟨some ⟨[], []⟩, none, none⟩

/-- Two-node graph `A → B`, unfiltered edge. -/
def gAB : PipelineGraph :=
  ⟨[("A", plainNode), ("B", plainNode)], [⟨"A", "B", none⟩], "A", ["B"]⟩

/-- Two-node graph `A → B` with edge filter `{stt}`. -/
def gABfiltered : PipelineGraph :=
  ⟨[("A", plainNode), ("B", plainNode)], [⟨"A", "B", some [EventTypeSTT]⟩],
    "A", ["B"]⟩

/-- Buffers with node `B`'s input buffer full (at capacity 100). -/
def fullBufB : String → List Event :=
  fun x => if x = "B" then List.replicate nodeBufferCap (Event.llm "x" "")
    else []

/-- C1 (against the code): with the context alive and the downstream
buffer full, the streaming router's `select` takes the `default:` branch
and the event vanishes - the buffer is unchanged and nothing blocks,
contradicting the spec's blocking-backpressure requirement.  The other
conjuncts show the filter clause of the claim on the same code: with
space, an unfiltered edge delivers the event, a filtered edge delivers
exactly the accepted types. -/
theorem routeStreaming_drops_on_full_buffer :
    routeEventStep gAB "A" fullBufB (Event.llm "hello" "") "B" =
        List.replicate nodeBufferCap (Event.llm "x" "") ∧
    routeEventStep gAB "A" (fun _ => []) (Event.llm "hello" "") "B" =
        [Event.llm "hello" ""] ∧
    routeEventStep gABfiltered "A" (fun _ => []) (Event.llm "hello" "") "B" =
        [] ∧
    routeEventStep gABfiltered "A" (fun _ => [])
        (Event.stt "hi" true 1.0) "B" = [Event.stt "hi" true 1.0] := by
  refine ⟨?_, ?_, ?_, ?_⟩ <;> rfl

/-- Three-node join `A → C ← B`. -/
def gJoin : PipelineGraph :=
  ⟨[("A", plainNode), ("B", plainNode), ("C", plainNode)],
    [⟨"A", "C", none⟩, ⟨"B", "C", none⟩], "A", ["C"]⟩

/-- Both upstream workers of `C` have exited; `C` itself has not. -/
def stBothUpstreamDone : CloseState :=
  ⟨fun x => x == "A" || x == "B", fun _ => 0⟩

/-- C3 (against the code): when both of `C`'s upstream workers are done
but `C`'s own worker has not exited, the routers of `A` and `B` each
pass the guard (which probes `C`'s `done` channel, not whether `C`'s
input was already closed) and `C`'s input channel is closed twice - in
Go the second `close` panics.  The second conjunct shows the sound half:
while an upstream `done` signal is missing, nothing is closed. -/
theorem inputClosure_double_close :
    (closeDownstreamInputs gJoin "B"
        (closeDownstreamInputs gJoin "A" stBothUpstreamDone)).inputCloseCount
        "C" = 2 ∧
    (closeDownstreamInputs gJoin "A"
        ⟨fun x => x == "A", fun _ => 0⟩).inputCloseCount "C" = 0 := by
  exact ⟨rfl, rfl⟩

/-- C8 (against the code): after a branch error under the cancel-all
policy, `handleBranchError` cancels `fr.ctx` (the router context created
from `Background`), but the context every sibling branch actually runs
under - `mergedCtx`, derived only from the caller's context - is still
live, so siblings are not cancelled.  The isolated policy changes
nothing, and in both cases `Route` surfaces the first branch error. -/
theorem fanout_cancelAll_does_not_cancel_siblings :
    (handleBranchError ErrorPolicyCancelAll
        ⟨false, false, false⟩).routerCancelled = true ∧
    mergedCtxDone (handleBranchError ErrorPolicyCancelAll
        ⟨false, false, false⟩) = false ∧
    handleBranchError ErrorPolicyIsolated ⟨false, false, false⟩ =
        ⟨false, false, false⟩ ∧
    routeResult [some "stage failed", none] = some "stage failed" := by
  refine ⟨by decide, by decide, by decide, by decide⟩

/-! ## Builder duplicate-name behaviour (C9) -/

/-- Go map assignment is idempotent-overwrite: assigning the same key
twice is the same as assigning it once with the last value. -/
theorem mapAssign_overwrite (l : List (String × NodeConfig)) (name : String)
    (c1 c2 : NodeConfig) :
    mapAssign (mapAssign l name c1) name c2 = mapAssign l name c2 := by
  induction l with
  | nil => simp [mapAssign]
  | cons p rest ih =>
    by_cases h : p.1 = name
    · simp [mapAssign, h]
    · simp [mapAssign, h, ih]

/-- C9 (amended): declaring two nodes with the same name in the builder
does *not* make `build()` fail - the builder's name-keyed config map
silently overwrites, so the builder state is exactly as if only the
second declaration had been made; the duplicate-node error exists only
in `PipelineGraph.AddNode`, which the builder never reaches with a
duplicate. -/
theorem builder_duplicate_name_overwrites :
    (∀ (b : GraphBuilder) (name : String) (s1 s2 : StageTypes),
      AddStage (AddStage b name s1) name s2 = AddStage b name s2) ∧
    (∀ (g : PipelineGraph) (name : String) (st : Option StageTypes)
      (fo : Option FanOutConfig) (ba : Option BarrierConfig),
      (getNodeData g name).isSome = true →
      AddNode g name st fo ba =
        .error ("node \"" ++ name ++ "\" already exists in graph")) := by
  constructor
  · intro b name s1 s2
    simp [AddStage, mapAssign_overwrite]
  · intro g name st fo ba h
    simp [AddNode, h]

theorem builder_duplicate_name_overwrites_witness :
    AddStage (AddStage NewBuilder "a" ⟨[], []⟩) "a" ⟨[], [EventTypeSTT]⟩ =
        AddStage NewBuilder "a" ⟨[], [EventTypeSTT]⟩ ∧
    AddNode (⟨[("a", plainNode)], [], "", []⟩ : PipelineGraph) "a"
        none none none =
        .error ("node \"a\" already exists in graph") :=
  ⟨builder_duplicate_name_overwrites.1 NewBuilder "a" ⟨[], []⟩
      ⟨[], [EventTypeSTT]⟩,
    builder_duplicate_name_overwrites.2 _ "a" none none none (by decide)⟩

/-- A builder that declares the node name `"a"` twice, with different
stages. -/
def dupBuilder : GraphBuilder :=
  AddExitNodeB
    (SetEntryNodeB
      (AddStage (AddStage NewBuilder "a" ⟨[], []⟩) "a" ⟨[], [EventTypeSTT]⟩)
      "a")
    "a"

/-- C9 counterexample (against the claim as stated): `build()` on a
builder with a duplicated node name does not fail - it materializes a
pipeline whose single node carries the second declaration. -/
theorem builder_duplicate_builds_ok :
    (Build dupBuilder).toOption =
      some ⟨[("a", ⟨some ⟨[], [EventTypeSTT]⟩, none, none⟩)], [], "a", ["a"]⟩ := by
  decide

/-! ## Semantic lemmas for the validator -/

theorem reach_trans {g : PipelineGraph} {x y z : String}
    (h1 : Reach g x y) (h2 : Reach g y z) : Reach g x z := by
  induction h1 with
  | refl _ => exact h2
  | step he _ ih => exact Reach.step he (ih h2)

/-- In a topologically sorted list, edges out of members stay inside. -/
theorem topo_closed {g : PipelineGraph} :
    ∀ {L : List String}, Topo g L → ∀ u ∈ L, ∀ w, hasEdge g u w → w ∈ L := by
  intro L
  induction L with
  | nil => intro _ u hu; simp at hu
  | cons a rest ih =>
    intro ht u hu w hw
    rcases ht with ⟨ha, hrest⟩
    rcases List.mem_cons.mp hu with h | h
    · subst h; exact List.mem_cons_of_mem _ (ha w hw)
    · exact List.mem_cons_of_mem _ (ih hrest u h w hw)

/-- Reachability never leaves a topologically sorted list. -/
theorem reach_stays {g : PipelineGraph} {L : List String} (ht : Topo g L) :
    ∀ {x y : String}, Reach g x y → x ∈ L → y ∈ L := by
  intro x y h
  induction h with
  | refl _ => exact fun h => h
  | step he _ ih => exact fun hx => ih (topo_closed ht _ hx _ he)

/-- A duplicate-free topologically sorted list admits no cycle through
its members. -/
theorem topo_no_cycle {g : PipelineGraph} :
    ∀ {L : List String}, Topo g L → L.Nodup → ∀ u v, u ∈ L →
      hasEdge g u v → Reach g v u → False := by
  intro L
  induction L with
  | nil => intro _ _ u v hu; simp at hu
  | cons a rest ih =>
    intro ht hnd u v hu he hr
    rcases ht with ⟨ha, hrest⟩
    rcases List.mem_cons.mp hu with h | h
    · subst h
      have hv : v ∈ rest := ha v he
      have : u ∈ rest := reach_stays hrest hr hv
      exact (List.nodup_cons.mp hnd).1 this
    · exact ih hrest (List.nodup_cons.mp hnd).2 u v h he hr

/-- The gray stack is a chain: consecutive entries are connected by
edges (deeper entries were pushed from shallower ones). -/
def ChainStack (g : PipelineGraph) : List String → Prop
  | [] => True
  | [_] => True
  | b :: a :: rest => hasEdge g a b ∧ ChainStack g (a :: rest)

/-- Every member of a chained stack reaches its top. -/
theorem chain_reach {g : PipelineGraph} :
    ∀ {t : List String} {h : String}, ChainStack g (h :: t) →
      ∀ x ∈ h :: t, Reach g x h := by
  intro t
  induction t with
  | nil =>
    intro h _ x hx
    rcases List.mem_cons.mp hx with h1 | h1
    · subst h1; exact Reach.refl x
    · simp at h1
  | cons a rest ih =>
    intro h hc x hx
    rcases hc with ⟨hedge, hchain⟩
    rcases List.mem_cons.mp hx with h1 | h1
    · subst h1; exact Reach.refl x
    · exact reach_trans (ih hchain x h1) (Reach.step hedge (Reach.refl h))

/-! ## Fuel accounting -/

/-- Number of universe names not yet visited. -/
def unvisitedCount (g : PipelineGraph) (v : List String) : Nat :=
  ((univNames g).toFinset \ v.toFinset).card

theorem unvisitedCount_lt (g : PipelineGraph) {node : String}
    {v : List String} (hu : node ∈ univNames g) (hv : node ∉ v) :
    unvisitedCount g (node :: v) < unvisitedCount g v := by
  apply Finset.card_lt_card
  rw [List.toFinset_cons]
  constructor
  · intro x hx
    rcases Finset.mem_sdiff.mp hx with ⟨h1, h2⟩
    exact Finset.mem_sdiff.mpr ⟨h1, fun h => h2 (Finset.mem_insert_of_mem h)⟩
  · intro hsub
    have : node ∈ (univNames g).toFinset \ v.toFinset :=
      Finset.mem_sdiff.mpr ⟨List.mem_toFinset.mpr hu,
        fun h => hv (List.mem_toFinset.mp h)⟩
    have := hsub this
    rcases Finset.mem_sdiff.mp this with ⟨_, h2⟩
    exact h2 (Finset.mem_insert_self _ _)

theorem unvisitedCount_mono (g : PipelineGraph) {v v' : List String}
    (h : v ⊆ v') : unvisitedCount g v' ≤ unvisitedCount g v := by
  apply Finset.card_le_card
  intro x hx
  rcases Finset.mem_sdiff.mp hx with ⟨h1, h2⟩
  exact Finset.mem_sdiff.mpr ⟨h1,
    fun hm => h2 (List.mem_toFinset.mpr (h (List.mem_toFinset.mp hm)))⟩

theorem unvisitedCount_le (g : PipelineGraph) (v : List String) :
    unvisitedCount g v ≤ (univNames g).length :=
  le_trans (Finset.card_le_card (Finset.sdiff_subset))
    (le_trans (Finset.card_le_card (le_refl _)) (univNames g).toFinset_card_le)

/-- Every edge target is in the universe. -/
theorem toName_mem_univ (g : PipelineGraph) {e : GEdge}
    (he : e ∈ g.edges) : e.toName ∈ univNames g := by
  unfold univNames
  rw [List.mem_dedup, List.mem_append]
  exact Or.inr (List.mem_map_of_mem _ he)

/-- Every node name is in the universe. -/
theorem nodeName_mem_univ (g : PipelineGraph) {p : String × GNodeData}
    (hp : p ∈ g.nodes) : p.1 ∈ univNames g := by
  unfold univNames
  rw [List.mem_dedup, List.mem_append]
  exact Or.inl (List.mem_map_of_mem Prod.fst hp)

/-- Edges in `Outputs g n` are graph edges out of `n`. -/
theorem mem_outputs (g : PipelineGraph) {n : String} {e : GEdge}
    (he : e ∈ Outputs g n) : e ∈ g.edges ∧ e.fromName = n := by
  have := List.mem_filter.mp he
  exact ⟨this.1, by simpa using this.2⟩

/-- Conversely every edge out of `n` is listed in `Outputs g n`. -/
theorem outputs_mem (g : PipelineGraph) {n : String} {e : GEdge}
    (he : e ∈ g.edges) (hf : e.fromName = n) : e ∈ Outputs g n :=
  List.mem_filter.mpr ⟨he, by simpa using hf⟩

/-- `hasEdge g n w` iff some listed output of `n` targets `w`. -/
theorem hasEdge_iff_outputs (g : PipelineGraph) (n w : String) :
    hasEdge g n w ↔ ∃ e ∈ Outputs g n, e.toName = w := by
  constructor
  · rintro ⟨e, he, h1, h2⟩
    exact ⟨e, outputs_mem g he h1, h2⟩
  · rintro ⟨e, he, h2⟩
    rcases mem_outputs g he with ⟨h1, hf⟩
    exact ⟨e, h1, hf, h2⟩

/-! ## Cycle DFS: shape, fuel, soundness, completeness -/

def CycleCall.visitedOf : CycleCall → List String
  | .visit _ v _ => v
  | .scan _ v _ => v

def CycleCall.recStackOf : CycleCall → List String
  | .visit _ _ r => r
  | .scan _ _ r => r

/-- The DFS only grows the visited set, and a cycle-free return leaves
the recursion stack exactly as it found it. -/
theorem cycleGo_shape (g : PipelineGraph) :
    ∀ (fuel : Nat) (c : CycleCall) (b : Bool) (v r : List String),
      cycleGo g fuel c = some (b, v, r) →
      c.visitedOf ⊆ v ∧ (b = false → r = c.recStackOf) := by
  intro fuel
  induction fuel with
  | zero => intro c b v r h; simp [cycleGo] at h
  | succ f ih =>
    intro c b v r h
    cases c with
    | visit node visited recStack =>
      cases h1 : cycleGo g f
          (.scan (Outputs g node) (node :: visited) (node :: recStack)) with
      | none => rw [cycleGo, h1] at h; exact absurd h (by simp)
      | some t =>
        obtain ⟨b1, v1, r1⟩ := t
        have hsub := (ih _ b1 v1 r1 h1).1
        have hsub' : visited ⊆ v1 :=
          fun x hx => hsub (List.mem_cons_of_mem _ hx)
        cases b1 with
        | true =>
          rw [cycleGo, h1] at h
          simp only [Option.some.injEq, Prod.mk.injEq] at h
          obtain ⟨hb, hv, hr⟩ := h
          subst hb; subst hv; subst hr
          exact ⟨hsub', by intro hcontra; cases hcontra⟩
        | false =>
          rw [cycleGo, h1] at h
          simp only [Option.some.injEq, Prod.mk.injEq] at h
          obtain ⟨hb, hv, hr⟩ := h
          subst hb; subst hv; subst hr
          have hr1 : r1 = node :: recStack := (ih _ false v1 r1 h1).2 rfl
          refine ⟨hsub', fun _ => ?_⟩
          rw [hr1, List.erase_cons_head]
          rfl
    | scan es visited recStack =>
      cases es with
      | nil =>
        rw [cycleGo] at h
        simp only [Option.some.injEq, Prod.mk.injEq] at h
        obtain ⟨hb, hv, hr⟩ := h
        subst hb; subst hv; subst hr
        exact ⟨fun x hx => hx, fun _ => rfl⟩
      | cons e rest =>
        by_cases hv : e.toName ∈ visited
        · by_cases hrs : e.toName ∈ recStack
          · rw [cycleGo, if_pos hv, if_pos hrs] at h
            simp only [Option.some.injEq, Prod.mk.injEq] at h
            obtain ⟨hb, hv2, hr⟩ := h
            subst hb; subst hv2; subst hr
            exact ⟨fun x hx => hx, by intro hcontra; cases hcontra⟩
          · rw [cycleGo, if_pos hv, if_neg hrs] at h
            exact ih (.scan rest visited recStack) b v r h
        · cases h1 : cycleGo g f (.visit e.toName visited recStack) with
          | none => rw [cycleGo, if_neg hv, h1] at h; exact absurd h (by simp)
          | some t =>
            obtain ⟨b1, v1, r1⟩ := t
            have hsub1 := (ih _ b1 v1 r1 h1).1
            cases b1 with
            | true =>
              rw [cycleGo, if_neg hv, h1] at h
              simp only [Option.some.injEq, Prod.mk.injEq] at h
              obtain ⟨hb, hv2, hr⟩ := h
              subst hb; subst hv2; subst hr
              exact ⟨hsub1, by intro hcontra; cases hcontra⟩
            | false =>
              rw [cycleGo, if_neg hv, h1] at h
              have hr1 : r1 = recStack := (ih _ false v1 r1 h1).2 rfl
              have h2 := ih _ b v r h
              refine ⟨fun x hx => h2.1 (hsub1 hx), fun hb => ?_⟩
              rw [h2.2 hb, hr1]
              rfl

/-- Fuel precondition under which the DFS cannot run out. -/
def cycleFuelOK (g : PipelineGraph) (fuel : Nat) : CycleCall → Prop
  | .visit node visited _ =>
      node ∈ univNames g ∧ node ∉ visited ∧
        unvisitedCount g visited * (g.edges.length + 2) < fuel
  | .scan es visited _ =>
      (∀ e ∈ es, e.toName ∈ univNames g) ∧
        unvisitedCount g visited * (g.edges.length + 2) + es.length + 1 ≤ fuel

/-- With enough fuel the DFS always returns. -/
theorem cycleGo_ne_none (g : PipelineGraph) :
    ∀ (fuel : Nat) (c : CycleCall), cycleFuelOK g fuel c →
      cycleGo g fuel c ≠ none := by
  intro fuel
  induction fuel with
  | zero =>
    intro c hc
    cases c with
    | visit node visited recStack => exact absurd hc.2.2 (by omega)
    | scan es visited recStack => exact absurd hc.2 (by omega)
  | succ f ih =>
    intro c hc
    cases c with
    | visit node visited recStack =>
      obtain ⟨hu, hnv, hfuel⟩ := hc
      have hupos : 1 ≤ unvisitedCount g visited := by
        have : node ∈ (univNames g).toFinset \ visited.toFinset :=
          Finset.mem_sdiff.mpr ⟨List.mem_toFinset.mpr hu,
            fun h => hnv (List.mem_toFinset.mp h)⟩
        have := Finset.card_pos.mpr ⟨node, this⟩
        exact this
      have hlt := unvisitedCount_lt g hu hnv
      have houtlen : (Outputs g node).length ≤ g.edges.length :=
        List.length_filter_le _ _
      have hnext : cycleFuelOK g f
          (.scan (Outputs g node) (node :: visited) (node :: recStack)) := by
        refine ⟨fun e he => toName_mem_univ g (mem_outputs g he).1, ?_⟩
        have hmul : unvisitedCount g (node :: visited) * (g.edges.length + 2)
            + (g.edges.length + 2) ≤
            unvisitedCount g visited * (g.edges.length + 2) := by
          have h1 : unvisitedCount g (node :: visited) + 1 ≤
              unvisitedCount g visited := hlt
          calc unvisitedCount g (node :: visited) * (g.edges.length + 2)
                + (g.edges.length + 2)
              = (unvisitedCount g (node :: visited) + 1) *
                  (g.edges.length + 2) := by ring
            _ ≤ unvisitedCount g visited * (g.edges.length + 2) :=
                Nat.mul_le_mul_right _ h1
        omega
      intro habs
      rw [cycleGo] at habs
      cases h1 : cycleGo g f
          (.scan (Outputs g node) (node :: visited) (node :: recStack)) with
      | none => exact ih _ hnext h1
      | some t =>
        obtain ⟨b1, v1, r1⟩ := t
        rw [h1] at habs
        cases b1 <;> simp at habs
    | scan es visited recStack =>
      obtain ⟨huniv, hfuel⟩ := hc
      cases es with
      | nil => rw [cycleGo]; simp
      | cons e rest =>
        simp only [List.length_cons] at hfuel
        by_cases hv : e.toName ∈ visited
        · by_cases hrs : e.toName ∈ recStack
          · rw [cycleGo, if_pos hv, if_pos hrs]; simp
          · rw [cycleGo, if_pos hv, if_neg hrs]
            exact ih _ ⟨fun e' he' => huniv e' (List.mem_cons_of_mem _ he'),
              by omega⟩
        · have hvisitOK : cycleFuelOK g f (.visit e.toName visited recStack) :=
            ⟨huniv e (List.mem_cons_self _ _), hv, by omega⟩
          intro habs
          rw [cycleGo, if_neg hv] at habs
          cases h1 : cycleGo g f (.visit e.toName visited recStack) with
          | none => exact ih _ hvisitOK h1
          | some t =>
            obtain ⟨b1, v1, r1⟩ := t
            rw [h1] at habs
            cases b1 with
            | true => simp at habs
            | false =>
              have hsub := (cycleGo_shape g f _ _ _ _ h1).1
              have hmono : unvisitedCount g v1 ≤ unvisitedCount g visited :=
                unvisitedCount_mono g hsub
              have hscanOK : cycleFuelOK g f (.scan rest v1 r1) := by
                refine ⟨fun e' he' => huniv e' (List.mem_cons_of_mem _ he'), ?_⟩
                have : unvisitedCount g v1 * (g.edges.length + 2) ≤
                    unvisitedCount g visited * (g.edges.length + 2) :=
                  Nat.mul_le_mul_right _ hmono
                omega
              exact ih _ hscanOK habs

/-- Chain invariant carried by the DFS: on entering a node the stack
below it is chained to it; while scanning, the scanned edges start at
the stack top. -/
def cycleChainInv (g : PipelineGraph) : CycleCall → Prop
  | .visit node _ recStack => ChainStack g (node :: recStack)
  | .scan es _ recStack =>
      ChainStack g recStack ∧
        ∃ hd tl, recStack = hd :: tl ∧
          ∀ e ∈ es, e ∈ g.edges ∧ e.fromName = hd

/-- Soundness: a reported back edge really closes a directed cycle. -/
theorem cycleGo_sound (g : PipelineGraph) :
    ∀ (fuel : Nat) (c : CycleCall) (v r : List String),
      cycleChainInv g c → cycleGo g fuel c = some (true, v, r) →
      Cyclic g := by
  intro fuel
  induction fuel with
  | zero => intro c v r _ h; simp [cycleGo] at h
  | succ f ih =>
    intro c v r hinv h
    cases c with
    | visit node visited recStack =>
      cases h1 : cycleGo g f
          (.scan (Outputs g node) (node :: visited) (node :: recStack)) with
      | none => rw [cycleGo, h1] at h; exact absurd h (by simp)
      | some t =>
        obtain ⟨b1, v1, r1⟩ := t
        cases b1 with
        | true =>
          refine ih _ v1 r1 ?_ h1
          exact ⟨hinv, node, recStack, rfl,
            fun e he => ⟨(mem_outputs g he).1, (mem_outputs g he).2⟩⟩
        | false => rw [cycleGo, h1] at h; exact absurd h (by simp)
    | scan es visited recStack =>
      cases es with
      | nil => rw [cycleGo] at h; exact absurd h (by simp)
      | cons e rest =>
        obtain ⟨hchain, hd, tl, hrs, hes⟩ := hinv
        by_cases hv : e.toName ∈ visited
        · by_cases hmem : e.toName ∈ recStack
          · have he := hes e (List.mem_cons_self _ _)
            have hedge : hasEdge g hd e.toName := ⟨e, he.1, he.2, rfl⟩
            have hreach : Reach g e.toName hd := by
              subst hrs
              exact chain_reach hchain e.toName hmem
            exact ⟨hd, e.toName, hedge, hreach⟩
          · rw [cycleGo, if_pos hv, if_neg hmem] at h
            exact ih (.scan rest visited recStack) v r
              ⟨hchain, hd, tl, hrs,
                fun e' he' => hes e' (List.mem_cons_of_mem _ he')⟩ h
        · cases h1 : cycleGo g f (.visit e.toName visited recStack) with
          | none => rw [cycleGo, if_neg hv, h1] at h; exact absurd h (by simp)
          | some t =>
            obtain ⟨b1, v1, r1⟩ := t
            cases b1 with
            | true =>
              refine ih _ v1 r1 ?_ h1
              have he := hes e (List.mem_cons_self _ _)
              subst hrs
              exact ⟨⟨e, he.1, he.2, rfl⟩, hchain⟩
            | false =>
              rw [cycleGo, if_neg hv, h1] at h
              have hr1 : r1 = recStack := (cycleGo_shape g f _ _ _ _ h1).2 rfl
              rw [hr1] at h
              exact ih (.scan rest v1 recStack) v r
                ⟨hchain, hd, tl, hrs,
                  fun e' he' => hes e' (List.mem_cons_of_mem _ he')⟩ h

/-- Invariant relating the visited set, the list of finished nodes `L`
(most recently finished first) and the gray stack. -/
def CInv (g : PipelineGraph) (visited L recStack : List String) : Prop :=
  (∀ x, x ∈ visited ↔ (x ∈ L ∨ x ∈ recStack)) ∧
    (∀ x ∈ L, x ∉ recStack) ∧ L.Nodup ∧ Topo g L

/-- Completeness scaffold: a cycle-free run extends the finished list,
which remains duplicate-free and topologically sorted; every node
entered ends up finished, and every scanned edge's target ends up
finished. -/
theorem cycleGo_complete (g : PipelineGraph) :
    ∀ (fuel : Nat) (c : CycleCall) (v r : List String) (L : List String),
      CInv g c.visitedOf L c.recStackOf →
      (match c with
       | .visit node visited _ => node ∉ visited
       | .scan _ _ _ => True) →
      cycleGo g fuel c = some (false, v, r) →
      ∃ L', L ⊆ L' ∧ CInv g v L' c.recStackOf ∧
        (match c with
         | .visit node _ _ => node ∈ L'
         | .scan es _ _ => ∀ e ∈ es, e.toName ∈ L') := by
  intro fuel
  induction fuel with
  | zero => intro c v r L _ _ h; simp [cycleGo] at h
  | succ f ih =>
    intro c v r L hinv hside h
    cases c with
    | visit node visited recStack =>
      simp only [CycleCall.visitedOf, CycleCall.recStackOf] at hinv ⊢
      obtain ⟨hmem, hdisj, hnd, htopo⟩ := hinv
      have hnode : node ∉ visited := hside
      have hnodeL : node ∉ L := fun hL => hnode ((hmem node).mpr (Or.inl hL))
      have hnodeR : node ∉ recStack :=
        fun hR => hnode ((hmem node).mpr (Or.inr hR))
      cases h1 : cycleGo g f
          (.scan (Outputs g node) (node :: visited) (node :: recStack)) with
      | none => rw [cycleGo, h1] at h; exact absurd h (by simp)
      | some t =>
        obtain ⟨b1, v1, r1⟩ := t
        cases b1 with
        | true => rw [cycleGo, h1] at h; exact absurd h (by simp)
        | false =>
          rw [cycleGo, h1] at h
          simp only [Option.some.injEq, Prod.mk.injEq, true_and] at h
          obtain ⟨hveq, hreq⟩ := h
          subst hveq
          have hinv1 : CInv g (node :: visited) L (node :: recStack) := by
            refine ⟨?_, ?_, hnd, htopo⟩
            · intro x
              constructor
              · intro hx
                rcases List.mem_cons.mp hx with h | h
                · subst h; exact Or.inr (List.mem_cons_self _ _)
                · rcases (hmem x).mp h with h | h
                  · exact Or.inl h
                  · exact Or.inr (List.mem_cons_of_mem _ h)
              · intro hx
                rcases hx with h | h
                · exact List.mem_cons_of_mem _ ((hmem x).mpr (Or.inl h))
                · rcases List.mem_cons.mp h with h | h
                  · subst h; exact List.mem_cons_self _ _
                  · exact List.mem_cons_of_mem _ ((hmem x).mpr (Or.inr h))
            · intro x hxL hxR
              rcases List.mem_cons.mp hxR with h | h
              · subst h; exact hnodeL hxL
              · exact hdisj x hxL h
          obtain ⟨L1, hL1sub, hCInv1, hnbrs⟩ :=
            ih (.scan (Outputs g node) (node :: visited) (node :: recStack))
              v1 r1 L hinv1 trivial h1
          simp only [CycleCall.visitedOf, CycleCall.recStackOf] at hCInv1 hnbrs
          obtain ⟨hmem1, hdisj1, hnd1, htopo1⟩ := hCInv1
          have hnodeL1 : node ∉ L1 :=
            fun hL => hdisj1 node hL (List.mem_cons_self _ _)
          refine ⟨node :: L1, fun x hx => List.mem_cons_of_mem _ (hL1sub hx),
            ⟨?_, ?_, ?_, ?_⟩, List.mem_cons_self _ _⟩
          · intro x
            constructor
            · intro hx
              rcases (hmem1 x).mp hx with h | h
              · exact Or.inl (List.mem_cons_of_mem _ h)
              · rcases List.mem_cons.mp h with h | h
                · subst h; exact Or.inl (List.mem_cons_self _ _)
                · exact Or.inr h
            · intro hx
              rcases hx with h | h
              · rcases List.mem_cons.mp h with h | h
                · subst h
                  exact (hmem1 x).mpr (Or.inr (List.mem_cons_self _ _))
                · exact (hmem1 x).mpr (Or.inl h)
              · exact (hmem1 x).mpr (Or.inr (List.mem_cons_of_mem _ h))
          · intro x hxL hxR
            rcases List.mem_cons.mp hxL with h | h
            · subst h; exact hnodeR hxR
            · exact hdisj1 x h (List.mem_cons_of_mem _ hxR)
          · exact List.nodup_cons.mpr ⟨hnodeL1, hnd1⟩
          · refine ⟨?_, htopo1⟩
            intro w hw
            rcases (hasEdge_iff_outputs g node w).mp hw with ⟨e, he, hte⟩
            subst hte
            exact hnbrs e he
    | scan es visited recStack =>
      simp only [CycleCall.visitedOf, CycleCall.recStackOf] at hinv ⊢
      cases es with
      | nil =>
        rw [cycleGo] at h
        simp only [Option.some.injEq, Prod.mk.injEq, true_and] at h
        obtain ⟨hveq, hreq⟩ := h
        subst hveq
        exact ⟨L, fun x hx => hx, hinv, by intro e he; simp at he⟩
      | cons e rest =>
        by_cases hv : e.toName ∈ visited
        · by_cases hrs : e.toName ∈ recStack
          · rw [cycleGo, if_pos hv, if_pos hrs] at h
            exact absurd h (by simp)
          · rw [cycleGo, if_pos hv, if_neg hrs] at h
            have htL : e.toName ∈ L := by
              rcases (hinv.1 e.toName).mp hv with h | h
              · exact h
              · exact absurd h hrs
            obtain ⟨L', hsub, hC, hnbrs⟩ :=
              ih (.scan rest visited recStack) v r L hinv trivial h
            exact ⟨L', hsub, hC, by
              intro e' he'
              rcases List.mem_cons.mp he' with h' | h'
              · subst h'; exact hsub htL
              · exact hnbrs e' h'⟩
        · cases h1 : cycleGo g f (.visit e.toName visited recStack) with
          | none => rw [cycleGo, if_neg hv, h1] at h; exact absurd h (by simp)
          | some t =>
            obtain ⟨b1, v1, r1⟩ := t
            cases b1 with
            | true => rw [cycleGo, if_neg hv, h1] at h; exact absurd h (by simp)
            | false =>
              rw [cycleGo, if_neg hv, h1] at h
              have hr1 : r1 = recStack := (cycleGo_shape g f _ _ _ _ h1).2 rfl
              rw [hr1] at h
              obtain ⟨L1, hsub1, hC1, hmem1⟩ :=
                ih (.visit e.toName visited recStack) v1 r1 L hinv hv h1
              simp only [CycleCall.visitedOf, CycleCall.recStackOf]
                at hC1 hmem1
              obtain ⟨L2, hsub2, hC2, hnbrs2⟩ :=
                ih (.scan rest v1 recStack) v r L1 hC1 trivial h
              refine ⟨L2, fun x hx => hsub2 (hsub1 hx), hC2, ?_⟩
              intro e' he'
              rcases List.mem_cons.mp he' with h' | h'
              · subst h'; exact hsub2 hmem1
              · exact hnbrs2 e' h'

/-! ## detectCycles driver lemmas -/

theorem wf_nodup {g : PipelineGraph} (hwf : wfGraph g = true) :
    (g.nodes.map Prod.fst).Nodup := by
  simp only [wfGraph, Bool.and_eq_true, decide_eq_true_eq] at hwf
  exact hwf.1

theorem getNodeData_isSome_iff (g : PipelineGraph) (name : String) :
    (getNodeData g name).isSome ↔ ∃ p ∈ g.nodes, p.1 = name := by
  unfold getNodeData
  cases hf : g.nodes.find? (fun p => p.1 = name) with
  | none =>
    simp only [Option.map_none', Option.isSome_none, Bool.false_eq_true,
      false_iff]
    rintro ⟨p, hp, hpq⟩
    have := List.find?_eq_none.mp hf p hp
    simp [hpq] at this
  | some p =>
    simp only [Option.map_some', Option.isSome_some, true_iff]
    exact ⟨p, List.mem_of_find?_eq_some hf, by
      have := List.find?_some hf
      simpa using this⟩

theorem wf_edge_endpoints {g : PipelineGraph} (hwf : wfGraph g = true)
    {e : GEdge} (he : e ∈ g.edges) :
    (∃ p ∈ g.nodes, p.1 = e.fromName) ∧ (∃ p ∈ g.nodes, p.1 = e.toName) := by
  simp only [wfGraph, Bool.and_eq_true, decide_eq_true_eq] at hwf
  have := hwf.2
  rw [List.all_eq_true] at this
  have h2 := this e he
  rw [Bool.and_eq_true] at h2
  exact ⟨(getNodeData_isSome_iff g e.fromName).mp h2.1,
    (getNodeData_isSome_iff g e.toName).mp h2.2⟩

theorem detectCyclesLoop_ne_none (g : PipelineGraph) :
    ∀ (ns : List (String × GNodeData)) (visited recStack : List String),
      (∀ p ∈ ns, p ∈ g.nodes) →
      detectCyclesLoop g ns visited recStack ≠ none := by
  intro ns
  induction ns with
  | nil => intro visited recStack _; rw [detectCyclesLoop]; simp
  | cons p rest ih =>
    intro visited recStack hmem
    obtain ⟨n, nd⟩ := p
    by_cases hv : n ∈ visited
    · rw [detectCyclesLoop, if_pos hv]
      exact ih visited recStack (fun q hq => hmem q (List.mem_cons_of_mem _ hq))
    · have hfuel : cycleFuelOK g (cycleFuel g) (.visit n visited recStack) := by
        refine ⟨nodeName_mem_univ g (hmem (n, nd) (List.mem_cons_self _ _)),
          hv, ?_⟩
        have h1 := unvisitedCount_le g visited
        have h2 : unvisitedCount g visited * (g.edges.length + 2) ≤
            (univNames g).length * (g.edges.length + 2) :=
          Nat.mul_le_mul_right _ h1
        unfold cycleFuel
        have hsum : ((univNames g).length + 1) * (g.edges.length + 2) =
            (univNames g).length * (g.edges.length + 2) +
              (g.edges.length + 2) := by ring
        omega
      intro habs
      rw [detectCyclesLoop, if_neg hv] at habs
      cases h1 : hasCycle g n visited recStack with
      | none => exact cycleGo_ne_none g (cycleFuel g) _ hfuel h1
      | some t =>
        obtain ⟨b1, v1, r1⟩ := t
        rw [h1] at habs
        cases b1 with
        | true => simp at habs
        | false =>
          exact ih v1 r1 (fun q hq => hmem q (List.mem_cons_of_mem _ hq)) habs

theorem detectCyclesLoop_sound (g : PipelineGraph) :
    ∀ (ns : List (String × GNodeData)) (visited : List String),
      detectCyclesLoop g ns visited [] = some true → Cyclic g := by
  intro ns
  induction ns with
  | nil => intro visited h; rw [detectCyclesLoop] at h; simp at h
  | cons p rest ih =>
    intro visited h
    obtain ⟨n, nd⟩ := p
    by_cases hv : n ∈ visited
    · rw [detectCyclesLoop, if_pos hv] at h
      exact ih visited h
    · rw [detectCyclesLoop, if_neg hv] at h
      cases h1 : hasCycle g n visited [] with
      | none => rw [h1] at h; exact absurd h (by simp)
      | some t =>
        obtain ⟨b1, v1, r1⟩ := t
        cases b1 with
        | true =>
          exact cycleGo_sound g (cycleFuel g) (.visit n visited []) v1 r1
            (by simp [cycleChainInv, ChainStack]) h1
        | false =>
          rw [h1] at h
          have hr1 : r1 = [] := (cycleGo_shape g (cycleFuel g) _ _ _ _ h1).2 rfl
          rw [hr1] at h
          exact ih v1 h

theorem detectCyclesLoop_complete (g : PipelineGraph) :
    ∀ (ns : List (String × GNodeData)) (visited L : List String),
      CInv g visited L [] →
      detectCyclesLoop g ns visited [] = some false →
      ∃ v' L', L ⊆ L' ∧ CInv g v' L' [] ∧ ∀ p ∈ ns, p.1 ∈ L' := by
  intro ns
  induction ns with
  | nil =>
    intro visited L hC _
    exact ⟨visited, L, fun x hx => hx, hC, by intro p hp; simp at hp⟩
  | cons p rest ih =>
    intro visited L hC h
    obtain ⟨n, nd⟩ := p
    by_cases hv : n ∈ visited
    · rw [detectCyclesLoop, if_pos hv] at h
      have hnL : n ∈ L := by
        rcases (hC.1 n).mp hv with h1 | h1
        · exact h1
        · simp at h1
      obtain ⟨v', L', hsub, hC', hall⟩ := ih visited L hC h
      refine ⟨v', L', hsub, hC', ?_⟩
      intro q hq
      rcases List.mem_cons.mp hq with h1 | h1
      · subst h1; exact hsub hnL
      · exact hall q h1
    · rw [detectCyclesLoop, if_neg hv] at h
      cases h1 : hasCycle g n visited [] with
      | none => rw [h1] at h; exact absurd h (by simp)
      | some t =>
        obtain ⟨b1, v1, r1⟩ := t
        cases b1 with
        | true => rw [h1] at h; exact absurd h (by simp)
        | false =>
          rw [h1] at h
          have hr1 : r1 = [] := (cycleGo_shape g (cycleFuel g) _ _ _ _ h1).2 rfl
          rw [hr1] at h
          obtain ⟨L1, hsub1, hC1, hmem1⟩ :=
            cycleGo_complete g (cycleFuel g) (.visit n visited []) v1 r1 L
              hC hv h1
          simp only [CycleCall.visitedOf, CycleCall.recStackOf] at hC1 hmem1
          obtain ⟨v2, L2, hsub2, hC2, hall2⟩ := ih v1 L1 hC1 h
          refine ⟨v2, L2, fun x hx => hsub2 (hsub1 hx), hC2, ?_⟩
          intro q hq
          rcases List.mem_cons.mp hq with h2 | h2
          · subst h2; exact hsub2 hmem1
          · exact hall2 q h2

/-- The validation error reported for a cycle. -/
def cycleDetectedError : ValidationError :=
  ⟨"graph validation failed", "cycle detected in pipeline graph"⟩

/-- An acyclic graph passes the cycle check. -/
theorem detectCycles_of_acyclic (g : PipelineGraph) (hnc : ¬ Cyclic g) :
    detectCycles g = none := by
  unfold detectCycles
  cases h : detectCyclesLoop g g.nodes [] [] with
  | none => exact absurd h (detectCyclesLoop_ne_none g g.nodes [] []
      (fun p hp => hp))
  | some b =>
    cases b with
    | true => exact absurd (detectCyclesLoop_sound g g.nodes [] h) hnc
    | false => rfl

/-- On a well-formed graph, passing the cycle check implies acyclicity. -/
theorem acyclic_of_detectCycles {g : PipelineGraph} (hwf : wfGraph g = true)
    (h : detectCycles g = none) : ¬ Cyclic g := by
  intro hcyc
  unfold detectCycles at h
  cases hl : detectCyclesLoop g g.nodes [] [] with
  | none => rw [hl] at h; exact absurd h (by simp)
  | some b =>
    cases b with
    | true => rw [hl] at h; exact absurd h (by simp)
    | false =>
      have hC0 : CInv g [] [] [] := by
        refine ⟨by simp, by simp, List.nodup_nil, trivial⟩
      obtain ⟨v', L', _, hC', hall⟩ :=
        detectCyclesLoop_complete g g.nodes [] [] hC0 hl
      obtain ⟨u, w, hedge, hreach⟩ := hcyc
      obtain ⟨e, he, hef, het⟩ := hedge
      obtain ⟨⟨p, hp, hp1⟩, _⟩ := wf_edge_endpoints hwf he
      have huL : u ∈ L' := by
        have := hall p hp
        rw [hp1, hef] at this
        exact this
      exact topo_no_cycle hC'.2.2.2 hC'.2.2.1 u w huL ⟨e, he, hef, het⟩ hreach

/-- On a well-formed cyclic graph the cycle check reports the cycle
error. -/
theorem detectCycles_of_cyclic {g : PipelineGraph} (hwf : wfGraph g = true)
    (hcyc : Cyclic g) : detectCycles g = some cycleDetectedError := by
  unfold detectCycles
  cases hl : detectCyclesLoop g g.nodes [] [] with
  | none => exact absurd hl (detectCyclesLoop_ne_none g g.nodes [] []
      (fun p hp => hp))
  | some b =>
    cases b with
    | true => rfl
    | false =>
      exfalso
      have hC0 : CInv g [] [] [] := by
        refine ⟨by simp, by simp, List.nodup_nil, trivial⟩
      obtain ⟨v', L', _, hC', hall⟩ :=
        detectCyclesLoop_complete g g.nodes [] [] hC0 hl
      obtain ⟨u, w, hedge, hreach⟩ := hcyc
      obtain ⟨e, he, hef, het⟩ := hedge
      obtain ⟨⟨p, hp, hp1⟩, _⟩ := wf_edge_endpoints hwf he
      have huL : u ∈ L' := by
        have := hall p hp
        rw [hp1, hef] at this
        exact this
      exact topo_no_cycle hC'.2.2.2 hC'.2.2.1 u w huL ⟨e, he, hef, het⟩ hreach

/-! ## Reachability DFS: shape, fuel, soundness, completeness -/

def ReachCall.reachableOf : ReachCall → List String
  | .visit _ m => m
  | .scan _ m => m

/-- The marking only grows. -/
theorem reachGo_shape (g : PipelineGraph) :
    ∀ (fuel : Nat) (c : ReachCall) (r' : List String),
      reachGo g fuel c = some r' → c.reachableOf ⊆ r' := by
  intro fuel
  induction fuel with
  | zero => intro c r' h; simp [reachGo] at h
  | succ f ih =>
    intro c r' h
    cases c with
    | visit node m =>
      by_cases hv : node ∈ m
      · rw [reachGo, if_pos hv] at h
        simp only [Option.some.injEq] at h
        subst h
        exact fun x hx => hx
      · rw [reachGo, if_neg hv] at h
        have := ih (.scan (Outputs g node) (node :: m)) r' h
        exact fun x hx => this (List.mem_cons_of_mem _ hx)
    | scan es m =>
      cases es with
      | nil =>
        rw [reachGo] at h
        simp only [Option.some.injEq] at h
        subst h
        exact fun x hx => hx
      | cons e rest =>
        cases h1 : reachGo g f (.visit e.toName m) with
        | none => rw [reachGo, h1] at h; exact absurd h (by simp)
        | some r1 =>
          rw [reachGo, h1] at h
          exact fun x hx =>
            ih (.scan rest r1) r' h (ih (.visit e.toName m) r1 h1 hx)

/-- Fuel precondition for the reachability DFS. -/
def reachFuelOK (g : PipelineGraph) (fuel : Nat) : ReachCall → Prop
  | .visit node m =>
      node ∈ univNames g ∧
        unvisitedCount g m * (g.edges.length + 2) < fuel
  | .scan es m =>
      (∀ e ∈ es, e.toName ∈ univNames g) ∧
        unvisitedCount g m * (g.edges.length + 2) + es.length + 1 ≤ fuel

theorem reachGo_ne_none (g : PipelineGraph) :
    ∀ (fuel : Nat) (c : ReachCall), reachFuelOK g fuel c →
      reachGo g fuel c ≠ none := by
  intro fuel
  induction fuel with
  | zero =>
    intro c hc
    cases c with
    | visit node m => exact absurd hc.2 (by omega)
    | scan es m => exact absurd hc.2 (by omega)
  | succ f ih =>
    intro c hc
    cases c with
    | visit node m =>
      obtain ⟨hu, hfuel⟩ := hc
      by_cases hv : node ∈ m
      · rw [reachGo, if_pos hv]; simp
      · have hlt := unvisitedCount_lt g hu hv
        have houtlen : (Outputs g node).length ≤ g.edges.length :=
          List.length_filter_le _ _
        have hnext : reachFuelOK g f (.scan (Outputs g node) (node :: m)) := by
          refine ⟨fun e he => toName_mem_univ g (mem_outputs g he).1, ?_⟩
          have hmul : unvisitedCount g (node :: m) * (g.edges.length + 2)
              + (g.edges.length + 2) ≤
              unvisitedCount g m * (g.edges.length + 2) := by
            have h1 : unvisitedCount g (node :: m) + 1 ≤
                unvisitedCount g m := hlt
            calc unvisitedCount g (node :: m) * (g.edges.length + 2)
                  + (g.edges.length + 2)
                = (unvisitedCount g (node :: m) + 1) *
                    (g.edges.length + 2) := by ring
              _ ≤ unvisitedCount g m * (g.edges.length + 2) :=
                  Nat.mul_le_mul_right _ h1
          omega
        rw [reachGo, if_neg hv]
        exact ih _ hnext
    | scan es m =>
      obtain ⟨huniv, hfuel⟩ := hc
      cases es with
      | nil => rw [reachGo]; simp
      | cons e rest =>
        simp only [List.length_cons] at hfuel
        have hvisitOK : reachFuelOK g f (.visit e.toName m) :=
          ⟨huniv e (List.mem_cons_self _ _), by omega⟩
        intro habs
        rw [reachGo] at habs
        cases h1 : reachGo g f (.visit e.toName m) with
        | none => exact ih _ hvisitOK h1
        | some r1 =>
          rw [h1] at habs
          have hsub := reachGo_shape g f (.visit e.toName m) r1 h1
          have hmono : unvisitedCount g r1 ≤ unvisitedCount g m :=
            unvisitedCount_mono g hsub
          have hscanOK : reachFuelOK g f (.scan rest r1) := by
            refine ⟨fun e' he' => huniv e' (List.mem_cons_of_mem _ he'), ?_⟩
            have : unvisitedCount g r1 * (g.edges.length + 2) ≤
                unvisitedCount g m * (g.edges.length + 2) :=
              Nat.mul_le_mul_right _ hmono
            omega
          exact ih _ hscanOK habs

/-- Everything marked is reachable (from the entered node, or via one of
the scanned edges' targets). -/
theorem reachGo_sound (g : PipelineGraph) :
    ∀ (fuel : Nat) (c : ReachCall) (r' : List String),
      reachGo g fuel c = some r' → ∀ x ∈ r',
      (match c with
       | .visit node m => x ∈ m ∨ Reach g node x
       | .scan es m => x ∈ m ∨ ∃ e ∈ es, Reach g e.toName x) := by
  intro fuel
  induction fuel with
  | zero => intro c r' h; simp [reachGo] at h
  | succ f ih =>
    intro c r' h x hx
    cases c with
    | visit node m =>
      by_cases hv : node ∈ m
      · rw [reachGo, if_pos hv] at h
        simp only [Option.some.injEq] at h
        subst h
        exact Or.inl hx
      · rw [reachGo, if_neg hv] at h
        have := ih (.scan (Outputs g node) (node :: m)) r' h x hx
        rcases this with h1 | ⟨e, he, hr⟩
        · rcases List.mem_cons.mp h1 with h2 | h2
          · subst h2; exact Or.inr (Reach.refl x)
          · exact Or.inl h2
        · rcases mem_outputs g he with ⟨hee, hef⟩
          exact Or.inr (Reach.step ⟨e, hee, hef, rfl⟩ hr)
    | scan es m =>
      cases es with
      | nil =>
        rw [reachGo] at h
        simp only [Option.some.injEq] at h
        subst h
        exact Or.inl hx
      | cons e rest =>
        cases h1 : reachGo g f (.visit e.toName m) with
        | none => rw [reachGo, h1] at h; exact absurd h (by simp)
        | some r1 =>
          rw [reachGo, h1] at h
          have h2 := ih (.scan rest r1) r' h x hx
          rcases h2 with h3 | ⟨e', he', hr'⟩
          · have h4 := ih (.visit e.toName m) r1 h1 x h3
            rcases h4 with h5 | h5
            · exact Or.inl h5
            · exact Or.inr ⟨e, List.mem_cons_self _ _, h5⟩
          · exact Or.inr ⟨e', List.mem_cons_of_mem _ he', hr'⟩

/-- The ghost closure invariant: every marked node either still has its
scan pending (is in `P`) or all its out-edges lead to marked nodes. -/
def QClosed (g : PipelineGraph) (m P : List String) : Prop :=
  ∀ u ∈ m, u ∈ P ∨ ∀ w, hasEdge g u w → w ∈ m

/-- Completeness scaffold: the final marking is closed under edges. -/
theorem reachGo_complete (g : PipelineGraph) :
    ∀ (fuel : Nat) (c : ReachCall) (r' : List String) (P : List String),
      QClosed g c.reachableOf P →
      reachGo g fuel c = some r' →
      c.reachableOf ⊆ r' ∧ QClosed g r' P ∧
        (match c with
         | .visit node _ => node ∈ r'
         | .scan es _ => ∀ e ∈ es, e.toName ∈ r') := by
  intro fuel
  induction fuel with
  | zero => intro c r' P _ h; simp [reachGo] at h
  | succ f ih =>
    intro c r' P hQ h
    cases c with
    | visit node m =>
      simp only [ReachCall.reachableOf] at hQ ⊢
      by_cases hv : node ∈ m
      · rw [reachGo, if_pos hv] at h
        simp only [Option.some.injEq] at h
        subst h
        exact ⟨fun x hx => hx, hQ, hv⟩
      · rw [reachGo, if_neg hv] at h
        have hQ1 : QClosed g (node :: m) (node :: P) := by
          intro u hu
          rcases List.mem_cons.mp hu with h1 | h1
          · subst h1; exact Or.inl (List.mem_cons_self _ _)
          · rcases hQ u h1 with h2 | h2
            · exact Or.inl (List.mem_cons_of_mem _ h2)
            · exact Or.inr (fun w hw => List.mem_cons_of_mem _ (h2 w hw))
        obtain ⟨hsub, hQ', hnbrs⟩ :=
          ih (.scan (Outputs g node) (node :: m)) r' (node :: P) hQ1 h
        simp only [ReachCall.reachableOf] at hsub hQ' hnbrs
        have hnodeIn : node ∈ r' := hsub (List.mem_cons_self _ _)
        refine ⟨fun x hx => hsub (List.mem_cons_of_mem _ hx), ?_, hnodeIn⟩
        intro u hu
        rcases hQ' u hu with h1 | h1
        · rcases List.mem_cons.mp h1 with h2 | h2
          · subst h2
            refine Or.inr ?_
            intro w hw
            rcases (hasEdge_iff_outputs g u w).mp hw with ⟨e, he, hte⟩
            subst hte
            exact hnbrs e he
          · exact Or.inl h2
        · exact Or.inr h1
    | scan es m =>
      simp only [ReachCall.reachableOf] at hQ ⊢
      cases es with
      | nil =>
        rw [reachGo] at h
        simp only [Option.some.injEq] at h
        subst h
        exact ⟨fun x hx => hx, hQ, by intro e he; simp at he⟩
      | cons e rest =>
        cases h1 : reachGo g f (.visit e.toName m) with
        | none => rw [reachGo, h1] at h; exact absurd h (by simp)
        | some r1 =>
          rw [reachGo, h1] at h
          obtain ⟨hsub1, hQ1, hmem1⟩ := ih (.visit e.toName m) r1 P hQ h1
          simp only [ReachCall.reachableOf] at hsub1 hQ1 hmem1
          obtain ⟨hsub2, hQ2, hnbrs2⟩ := ih (.scan rest r1) r' P hQ1 h
          simp only [ReachCall.reachableOf] at hsub2 hQ2 hnbrs2
          refine ⟨fun x hx => hsub2 (hsub1 hx), hQ2, ?_⟩
          intro e' he'
          rcases List.mem_cons.mp he' with h2 | h2
          · subst h2; exact hsub2 hmem1
          · exact hnbrs2 e' h2

/-- A closed marking absorbs reachability. -/
theorem reach_mem_of_closed {g : PipelineGraph} {m : List String}
    (hQ : QClosed g m []) : ∀ {a b : String}, Reach g a b → a ∈ m → b ∈ m := by
  intro a b h
  induction h with
  | refl _ => exact fun h => h
  | step he _ ih =>
    intro ha
    rcases hQ _ ha with h1 | h1
    · simp at h1
    · exact ih (h1 _ he)

/-- The marking computed from the entry is exactly the set of nodes
reachable from it. -/
theorem dfsReachability_reachset (g : PipelineGraph) (en : String)
    (hen : en ∈ univNames g) :
    ∃ M, dfsReachability g en [] = some M ∧ ∀ x, (x ∈ M ↔ Reach g en x) := by
  have hfuel : reachFuelOK g (reachFuel g) (.visit en []) := by
    refine ⟨hen, ?_⟩
    have h1 := unvisitedCount_le g ([] : List String)
    have h2 : unvisitedCount g [] * (g.edges.length + 2) ≤
        (univNames g).length * (g.edges.length + 2) :=
      Nat.mul_le_mul_right _ h1
    unfold reachFuel
    have hsum : ((univNames g).length + 1) * (g.edges.length + 2) =
        (univNames g).length * (g.edges.length + 2) +
          (g.edges.length + 2) := by ring
    omega
  cases hM : dfsReachability g en [] with
  | none => exact absurd hM (reachGo_ne_none g (reachFuel g) _ hfuel)
  | some M =>
    refine ⟨M, rfl, ?_⟩
    intro x
    constructor
    · intro hx
      have := reachGo_sound g (reachFuel g) (.visit en []) M hM x hx
      rcases this with h1 | h1
      · simp at h1
      · exact h1
    · intro hx
      obtain ⟨hsub, hQ, hmem⟩ :=
        reachGo_complete g (reachFuel g) (.visit en []) M []
          (by intro u hu; simp [ReachCall.reachableOf] at hu) hM
      exact reach_mem_of_closed hQ hx hmem

/-! ## checkReachability characterization -/

theorem GetEntryNode_mem {g : PipelineGraph} {p : String × GNodeData}
    (h : GetEntryNode g = some p) : p ∈ g.nodes := by
  unfold GetEntryNode at h
  split_ifs at h
  exact List.mem_of_find?_eq_some h

/-- `checkReachability` succeeds iff every node is reachable from the
entry, and on failure it reports some unreachable node by name. -/
theorem checkReachability_spec (g : PipelineGraph)
    {p : String × GNodeData} (hent : GetEntryNode g = some p) :
    (checkReachability g = none ↔ ∀ q ∈ g.nodes, Reach g p.1 q.1) ∧
    (∀ err, checkReachability g = some err →
      ∃ q ∈ g.nodes, ¬ Reach g p.1 q.1 ∧
        err = ⟨"graph validation failed", unreachableMsg q.1⟩) := by
  have hen : p.1 ∈ univNames g :=
    nodeName_mem_univ g (GetEntryNode_mem hent)
  obtain ⟨M, hM, hiff⟩ := dfsReachability_reachset g p.1 hen
  have hstep : checkReachability g =
      (match g.nodes.find? (fun q => ¬ q.1 ∈ M) with
       | some q => some ⟨"graph validation failed", unreachableMsg q.1⟩
       | none => none) := by
    unfold checkReachability
    rw [hent]
    show (match dfsReachability g p.1 [] with
      | none =>
        some (ValidationError.mk "graph validation failed"
          "reachability fuel exhausted")
      | some reachable =>
        match g.nodes.find?
            (fun (q : String × GNodeData) => ¬ q.1 ∈ reachable) with
        | some q =>
          some (ValidationError.mk "graph validation failed"
            (unreachableMsg q.1))
        | none => none) = _
    rw [hM]
  rw [hstep]
  cases hf : g.nodes.find? (fun q => ¬ q.1 ∈ M) with
  | none =>
    constructor
    · constructor
      · intro _ q hq
        have := List.find?_eq_none.mp hf q hq
        simp only [decide_not, Bool.not_eq_true', decide_eq_false_iff_not,
          Decidable.not_not] at this
        exact (hiff q.1).mp this
      · intro _; rfl
    · intro err herr; simp at herr
  | some q =>
    have hqmem := List.mem_of_find?_eq_some hf
    have hqpred := List.find?_some hf
    simp only [decide_not, Bool.not_eq_true', decide_eq_false_iff_not] at hqpred
    have hqnr : ¬ Reach g p.1 q.1 := fun hr => hqpred ((hiff q.1).mpr hr)
    constructor
    · constructor
      · intro h; simp at h
      · intro hall
        exact absurd (hall q hqmem) hqnr
    · intro err herr
      simp only [Option.some.injEq] at herr
      exact ⟨q, hqmem, hqnr, herr.symm⟩

/-! ## Type-compatibility characterization (C6) -/

/-- The declared stage types of a node (`node.Stage()`; `none` for
synthetic fan-out/barrier nodes or missing nodes). -/
def stageOfNode (g : PipelineGraph) (name : String) : Option StageTypes :=
  (getNodeData g name).bind (fun nd => nd.stage)

/-- The claim's per-edge acceptance condition, written in the claim's
own terms: accept iff the downstream input set is empty, or the upstream
output set is empty, or the wildcard appears downstream, or some
upstream output type passes the edge filter and is accepted
downstream. -/
def edgeCompatSpec (e : GEdge) (su sd : StageTypes) : Prop :=
  sd.inputTypes = [] ∨ su.outputTypes = [] ∨
    EventTypeWildcard ∈ sd.inputTypes ∨
    ∃ t ∈ su.outputTypes, ShouldForwardEvent e t = true ∧ t ∈ sd.inputTypes

instance (e : GEdge) (su sd : StageTypes) :
    Decidable (edgeCompatSpec e su sd) := by
  unfold edgeCompatSpec
  infer_instance

/-- The code's per-edge decision (the `continue` guards plus
`hasCompatibleType`) coincides with the claim's condition. -/
theorem edgeCompatSpec_iff_code (e : GEdge) (su sd : StageTypes) :
    edgeCompatSpec e su sd ↔
      (sd.inputTypes.length = 0 ∨ su.outputTypes.length = 0 ∨
        hasCompatibleType su.outputTypes sd.inputTypes e.eventFilter = true) := by
  unfold edgeCompatSpec hasCompatibleType ShouldForwardEvent
  cases hfil : e.eventFilter with
  | none =>
    simp only [List.length_eq_zero, List.any_eq_true, Bool.or_eq_true,
      List.elem_iff, decide_eq_true_eq]
    constructor
    · rintro (h | h | h | ⟨t, ht, -, hin⟩)
      · exact Or.inl h
      · exact Or.inr (Or.inl h)
      · exact Or.inr (Or.inr (Or.inl ⟨EventTypeWildcard, h, Or.inr rfl⟩))
      · exact Or.inr (Or.inr (Or.inl ⟨t, hin, Or.inl ht⟩))
    · rintro (h | h | (⟨d, hd, (h1 | h1)⟩ | ⟨d, hd, h1⟩))
      · exact Or.inl h
      · exact Or.inr (Or.inl h)
      · exact Or.inr (Or.inr (Or.inr ⟨d, h1, trivial, hd⟩))
      · subst h1; exact Or.inr (Or.inr (Or.inl hd))
      · subst h1; exact Or.inr (Or.inr (Or.inl hd))
  | some f =>
    simp only [List.length_eq_zero, List.any_eq_true, Bool.or_eq_true,
      Bool.and_eq_true, List.elem_iff, decide_eq_true_eq, List.mem_filter]
    aesop

/-- With duplicate-free keys, `find?` by key returns the entry itself. -/
theorem find?_key_unique {l : List (String × GNodeData)}
    (hnd : (l.map Prod.fst).Nodup) {p : String × GNodeData} (hp : p ∈ l) :
    l.find? (fun q => q.1 = p.1) = some p := by
  induction l with
  | nil => simp at hp
  | cons q rest ih =>
    rw [List.map_cons, List.nodup_cons] at hnd
    rcases List.mem_cons.mp hp with h | h
    · subst h
      rw [List.find?_cons_of_pos _ (by simp)]
    · have hne : ¬ (q.1 = p.1) := by
        intro heq
        exact hnd.1 (heq ▸ List.mem_map_of_mem Prod.fst h)
      rw [List.find?_cons_of_neg _ (by simpa using hne)]
      exact ih hnd.2 h

theorem getNodeData_of_mem {g : PipelineGraph} (hwf : wfGraph g = true)
    {p : String × GNodeData} (hp : p ∈ g.nodes) :
    getNodeData g p.1 = some p.2 := by
  unfold getNodeData
  rw [find?_key_unique (wf_nodup hwf) hp]
  rfl

/-- Per-edge scan characterization: the scan over a node's out-edges
accepts exactly when every scanned edge satisfies the claim condition,
and a failure reports the first offending edge with both names and type
sets. -/
theorem vtcEdges_spec (g : PipelineGraph) (n : String) (nd : GNodeData)
    (su : StageTypes) (hlookup : getNodeData g n = some nd)
    (hstage : nd.stage = some su) :
    ∀ es : List GEdge, (∀ e ∈ es, e.fromName = n) →
      ((vtcEdges g n su.outputTypes es = none ↔
        ∀ e ∈ es, ∀ su' sd, stageOfNode g e.fromName = some su' →
          stageOfNode g e.toName = some sd → edgeCompatSpec e su' sd) ∧
       (∀ err, vtcEdges g n su.outputTypes es = some err →
        ∃ e ∈ es, ∃ su' sd, stageOfNode g e.fromName = some su' ∧
          stageOfNode g e.toName = some sd ∧ ¬ edgeCompatSpec e su' sd ∧
          err = ⟨"graph validation failed",
            incompatMsg e.fromName su'.outputTypes e.toName sd.inputTypes⟩)) := by
  intro es
  induction es with
  | nil =>
    intro _
    constructor
    · simp [vtcEdges]
    · intro err herr; simp [vtcEdges] at herr
  | cons e rest ih =>
    intro hfr
    have hfr_e : e.fromName = n := hfr e (List.mem_cons_self _ _)
    have hfrom : stageOfNode g e.fromName = some su := by
      rw [hfr_e]
      unfold stageOfNode
      rw [hlookup]
      simpa using hstage
    obtain ⟨ihiff, iherr⟩ := ih (fun e' he' => hfr e' (List.mem_cons_of_mem _ he'))
    cases hto : getNodeData g e.toName with
    | none =>
      have hstageTo : stageOfNode g e.toName = none := by
        unfold stageOfNode; rw [hto]; rfl
      have hstep : vtcEdges g n su.outputTypes (e :: rest) =
          vtcEdges g n su.outputTypes rest := by
        simp only [vtcEdges, hto]
      constructor
      · rw [hstep, ihiff]
        constructor
        · intro hrest e' he' su' sd h1 h2
          rcases List.mem_cons.mp he' with h | h
          · subst h; rw [hstageTo] at h2; cases h2
          · exact hrest e' h su' sd h1 h2
        · intro hall e' he'
          exact hall e' (List.mem_cons_of_mem _ he')
      · rw [hstep]
        intro err herr
        obtain ⟨e', he', rest'⟩ := iherr err herr
        exact ⟨e', List.mem_cons_of_mem _ he', rest'⟩
    | some dnd =>
      cases hds : dnd.stage with
      | none =>
        have hstageTo : stageOfNode g e.toName = none := by
          unfold stageOfNode; rw [hto]; simpa using hds
        have hstep : vtcEdges g n su.outputTypes (e :: rest) =
            vtcEdges g n su.outputTypes rest := by
          simp only [vtcEdges, hto, hds]
        constructor
        · rw [hstep, ihiff]
          constructor
          · intro hrest e' he' su' sd h1 h2
            rcases List.mem_cons.mp he' with h | h
            · subst h; rw [hstageTo] at h2; cases h2
            · exact hrest e' h su' sd h1 h2
          · intro hall e' he'
            exact hall e' (List.mem_cons_of_mem _ he')
        · rw [hstep]
          intro err herr
          obtain ⟨e', he', rest'⟩ := iherr err herr
          exact ⟨e', List.mem_cons_of_mem _ he', rest'⟩
      | some dst =>
        have hstageTo : stageOfNode g e.toName = some dst := by
          unfold stageOfNode; rw [hto]; simpa using hds
        have hcond : (∀ su' sd, stageOfNode g e.fromName = some su' →
            stageOfNode g e.toName = some sd → edgeCompatSpec e su' sd) ↔
            edgeCompatSpec e su dst := by
          constructor
          · intro h; exact h su dst hfrom hstageTo
          · intro h su' sd h1 h2
            rw [hfrom] at h1
            rw [hstageTo] at h2
            cases h1; cases h2
            exact h
        by_cases h1 : dst.inputTypes.length = 0
        · have hspec : edgeCompatSpec e su dst :=
            (edgeCompatSpec_iff_code e su dst).mpr (Or.inl h1)
          have hstep : vtcEdges g n su.outputTypes (e :: rest) =
              vtcEdges g n su.outputTypes rest := by
            simp only [vtcEdges, hto, hds, if_pos h1]
          constructor
          · rw [hstep, ihiff]
            constructor
            · intro hrest e' he' su' sd hs1 hs2
              rcases List.mem_cons.mp he' with h | h
              · subst h; exact hcond.mpr hspec su' sd hs1 hs2
              · exact hrest e' h su' sd hs1 hs2
            · intro hall e' he'
              exact hall e' (List.mem_cons_of_mem _ he')
          · rw [hstep]
            intro err herr
            obtain ⟨e', he', rest'⟩ := iherr err herr
            exact ⟨e', List.mem_cons_of_mem _ he', rest'⟩
        · by_cases h2 : su.outputTypes.length = 0
          · have hspec : edgeCompatSpec e su dst :=
              (edgeCompatSpec_iff_code e su dst).mpr (Or.inr (Or.inl h2))
            have hstep : vtcEdges g n su.outputTypes (e :: rest) =
                vtcEdges g n su.outputTypes rest := by
              simp only [vtcEdges, hto, hds, if_neg h1, if_pos h2]
            constructor
            · rw [hstep, ihiff]
              constructor
              · intro hrest e' he' su' sd hs1 hs2
                rcases List.mem_cons.mp he' with h | h
                · subst h; exact hcond.mpr hspec su' sd hs1 hs2
                · exact hrest e' h su' sd hs1 hs2
              · intro hall e' he'
                exact hall e' (List.mem_cons_of_mem _ he')
            · rw [hstep]
              intro err herr
              obtain ⟨e', he', rest'⟩ := iherr err herr
              exact ⟨e', List.mem_cons_of_mem _ he', rest'⟩
          · by_cases h3 : hasCompatibleType su.outputTypes dst.inputTypes
                e.eventFilter = true
            · have hspec : edgeCompatSpec e su dst :=
                (edgeCompatSpec_iff_code e su dst).mpr (Or.inr (Or.inr h3))
              have hstep : vtcEdges g n su.outputTypes (e :: rest) =
                  vtcEdges g n su.outputTypes rest := by
                simp only [vtcEdges, hto, hds, if_neg h1, if_neg h2, if_pos h3]
              constructor
              · rw [hstep, ihiff]
                constructor
                · intro hrest e' he' su' sd hs1 hs2
                  rcases List.mem_cons.mp he' with h | h
                  · subst h; exact hcond.mpr hspec su' sd hs1 hs2
                  · exact hrest e' h su' sd hs1 hs2
                · intro hall e' he'
                  exact hall e' (List.mem_cons_of_mem _ he')
              · rw [hstep]
                intro err herr
                obtain ⟨e', he', rest'⟩ := iherr err herr
                exact ⟨e', List.mem_cons_of_mem _ he', rest'⟩
            · have hnspec : ¬ edgeCompatSpec e su dst := by
                rw [edgeCompatSpec_iff_code]
                push_neg
                exact ⟨h1, h2, h3⟩
              have hstep : vtcEdges g n su.outputTypes (e :: rest) =
                  some ⟨"graph validation failed",
                    incompatMsg n su.outputTypes e.toName dst.inputTypes⟩ := by
                simp only [vtcEdges, hto, hds, if_neg h1, if_neg h2, if_neg h3]
              constructor
              · rw [hstep]
                constructor
                · intro h; cases h
                · intro hall
                  exact absurd (hall e (List.mem_cons_self _ _) su dst
                    hfrom hstageTo) hnspec
              · rw [hstep]
                intro err herr
                simp only [Option.some.injEq] at herr
                refine ⟨e, List.mem_cons_self _ _, su, dst, hfrom, hstageTo,
                  hnspec, ?_⟩
                rw [← herr, hfr_e]

/-- The claim's acceptance condition for an edge, quantified over the
stage lookups of its endpoints (vacuous when either endpoint is a
synthetic fan-out/barrier node or missing). -/
def perEdgeOK (g : PipelineGraph) (e : GEdge) : Prop :=
  ∀ su sd, stageOfNode g e.fromName = some su →
    stageOfNode g e.toName = some sd → edgeCompatSpec e su sd

theorem vtcLoop_spec (g : PipelineGraph) (hwf : wfGraph g = true) :
    ∀ ns : List (String × GNodeData), (∀ p ∈ ns, p ∈ g.nodes) →
      ((vtcLoop g ns = none ↔
        ∀ p ∈ ns, ∀ e ∈ Outputs g p.1, perEdgeOK g e) ∧
       (∀ err, vtcLoop g ns = some err →
        ∃ e ∈ g.edges, ∃ su sd, stageOfNode g e.fromName = some su ∧
          stageOfNode g e.toName = some sd ∧ ¬ edgeCompatSpec e su sd ∧
          err = ⟨"graph validation failed",
            incompatMsg e.fromName su.outputTypes e.toName sd.inputTypes⟩)) := by
  intro ns
  induction ns with
  | nil =>
    intro _
    constructor
    · simp [vtcLoop]
    · intro err herr; simp [vtcLoop] at herr
  | cons p rest ih =>
    intro hmem
    obtain ⟨n, nd⟩ := p
    have hp : (n, nd) ∈ g.nodes := hmem (n, nd) (List.mem_cons_self _ _)
    have hlookup : getNodeData g n = some nd := getNodeData_of_mem hwf hp
    obtain ⟨ihiff, iherr⟩ := ih (fun q hq => hmem q (List.mem_cons_of_mem _ hq))
    cases hstage : nd.stage with
    | none =>
      have hstep : vtcLoop g ((n, nd) :: rest) = vtcLoop g rest := by
        simp only [vtcLoop, hstage]
      constructor
      · rw [hstep, ihiff]
        constructor
        · intro hrest q hq e he
          rcases List.mem_cons.mp hq with h | h
          · subst h
            intro su sd h1 h2
            rw [(mem_outputs g he).2] at h1
            unfold stageOfNode at h1
            rw [hlookup, Option.some_bind, hstage] at h1
            cases h1
          · exact hrest q h e he
        · intro hall q hq
          exact hall q (List.mem_cons_of_mem _ hq)
      · rw [hstep]
        exact iherr
    | some su =>
      have hescan := vtcEdges_spec g n nd su hlookup hstage (Outputs g n)
        (fun e he => (mem_outputs g he).2)
      cases hscan : vtcEdges g n su.outputTypes (Outputs g n) with
      | none =>
        have hedges := hescan.1.mp hscan
        have hstep : vtcLoop g ((n, nd) :: rest) = vtcLoop g rest := by
          simp only [vtcLoop, hstage, hscan]
        constructor
        · rw [hstep, ihiff]
          constructor
          · intro hrest q hq e he
            rcases List.mem_cons.mp hq with h | h
            · subst h
              exact fun su' sd h1 h2 => hedges e he su' sd h1 h2
            · exact hrest q h e he
          · intro hall q hq
            exact hall q (List.mem_cons_of_mem _ hq)
        · rw [hstep]
          exact iherr
      | some err0 =>
        have hstep : vtcLoop g ((n, nd) :: rest) = some err0 := by
          simp only [vtcLoop, hstage, hscan]
        obtain ⟨e, he, su', sd, hs1, hs2, hnspec, herr0⟩ :=
          hescan.2 err0 hscan
        constructor
        · rw [hstep]
          constructor
          · intro h; cases h
          · intro hall
            exact absurd (hall (n, nd) (List.mem_cons_self _ _) e he su' sd
              hs1 hs2) hnspec
        · rw [hstep]
          intro err herr
          simp only [Option.some.injEq] at herr
          subst herr
          exact ⟨e, (mem_outputs g he).1, su', sd, hs1, hs2, hnspec, herr0⟩

/-- C6: type validation accepts exactly when every edge whose endpoints
both own a stage satisfies the claim's condition (synthetic fan-out or
barrier endpoints make the condition vacuous, i.e. the edge is skipped);
a failure reports both stage names and their declared type sets. -/
theorem validateTypeCompatibility_characterization (g : PipelineGraph)
    (hwf : wfGraph g = true) :
    (validateTypeCompatibility g = none ↔ ∀ e ∈ g.edges, perEdgeOK g e) ∧
    (∀ err, validateTypeCompatibility g = some err →
      ∃ e ∈ g.edges, ∃ su sd, stageOfNode g e.fromName = some su ∧
        stageOfNode g e.toName = some sd ∧ ¬ edgeCompatSpec e su sd ∧
        err = ⟨"graph validation failed",
          incompatMsg e.fromName su.outputTypes e.toName sd.inputTypes⟩) := by
  obtain ⟨hiff, herr⟩ := vtcLoop_spec g hwf g.nodes (fun p hp => hp)
  constructor
  · unfold validateTypeCompatibility
    rw [hiff]
    constructor
    · intro hall e he su sd h1 h2
      have hsome : (getNodeData g e.fromName).isSome := by
        unfold stageOfNode at h1
        cases hg : getNodeData g e.fromName with
        | none => rw [hg] at h1; cases h1
        | some _ => rfl
      obtain ⟨q, hq, hq1⟩ := (getNodeData_isSome_iff g e.fromName).mp hsome
      have heout : e ∈ Outputs g q.1 := outputs_mem g he hq1.symm
      exact hall q hq e heout su sd h1 h2
    · intro hall q hq e he
      exact hall e (mem_outputs g he).1
  · exact herr

/-! ## ValidateGraph characterization (C5) -/

/-- Bridge: a name outside the DFS marking is unreachable. -/
theorem not_reach_of_dfs (g : PipelineGraph) (en x : String)
    (hen : en ∈ univNames g) (M : List String)
    (hval : dfsReachability g en [] = some M) (hx : x ∉ M) :
    ¬ Reach g en x := by
  obtain ⟨M', hM', hiff⟩ := dfsReachability_reachset g en hen
  rw [hval] at hM'
  cases hM'
  exact fun h => hx ((hiff x).mpr h)

/-- Bridge: a name inside the DFS marking is reachable. -/
theorem reach_of_dfs (g : PipelineGraph) (en x : String)
    (hen : en ∈ univNames g) (M : List String)
    (hval : dfsReachability g en [] = some M) (hx : x ∈ M) :
    Reach g en x := by
  obtain ⟨M', hM', hiff⟩ := dfsReachability_reachset g en hen
  rw [hval] at hM'
  cases hM'
  exact (hiff x).mp hx

/-- C5 (amended): `ValidateGraph` runs entry, cycle, reachability and
type checks in order, aborting on the first failure.  On a well-formed
graph with an entry node: it succeeds when the graph is acyclic, every
node is reachable from the entry, and every edge is type-compatible;
any graph containing a directed cycle fails with the cycle error (even
if it also has unreachable nodes); an acyclic graph with an unreachable
node fails with an error naming some unreachable stage. -/
theorem ValidateGraph_ordered_characterization (g : PipelineGraph)
    (hwf : wfGraph g = true) (p : String × GNodeData)
    (hent : GetEntryNode g = some p) :
    ((¬ Cyclic g) → (∀ q ∈ g.nodes, Reach g p.1 q.1) →
      (∀ e ∈ g.edges, perEdgeOK g e) → ValidateGraph g = none) ∧
    (Cyclic g → ValidateGraph g = some cycleDetectedError) ∧
    ((¬ Cyclic g) → (∃ q ∈ g.nodes, ¬ Reach g p.1 q.1) →
      ∃ name, (∃ nd, (name, nd) ∈ g.nodes) ∧ ¬ Reach g p.1 name ∧
        ValidateGraph g =
          some ⟨"graph validation failed", unreachableMsg name⟩) := by
  have hstep : ValidateGraph g =
      (match detectCycles g with
       | some err => some err
       | none =>
         match checkReachability g with
         | some err => some err
         | none => validateTypeCompatibility g) := by
    unfold ValidateGraph
    rw [hent]
  refine ⟨?_, ?_, ?_⟩
  · intro hnc hreach hcompat
    rw [hstep, detectCycles_of_acyclic g hnc,
      (checkReachability_spec g hent).1.mpr hreach]
    exact (validateTypeCompatibility_characterization g hwf).1.mpr hcompat
  · intro hcyc
    rw [hstep, detectCycles_of_cyclic hwf hcyc]
  · intro hnc hex
    rw [hstep, detectCycles_of_acyclic g hnc]
    cases hcr : checkReachability g with
    | none =>
      exfalso
      obtain ⟨q, hq, hnr⟩ := hex
      exact hnr ((checkReachability_spec g hent).1.mp hcr q hq)
    | some err =>
      obtain ⟨q, hq, hnr, herrq⟩ := (checkReachability_spec g hent).2 err hcr
      refine ⟨q.1, ⟨q.2, by simpa using hq⟩, hnr, ?_⟩
      rw [herrq]

/-- Entry node `A`, plus a 2-cycle `B → C → B` unreachable from it. -/
def gCycleUnreachable : PipelineGraph :=
  ⟨[("A", plainNode), ("B", plainNode), ("C", plainNode)],
    [⟨"B", "C", none⟩, ⟨"C", "B", none⟩], "A", ["A"]⟩

/-- Reachability from a node with no outgoing edges goes nowhere. -/
theorem reach_from_no_outputs {g : PipelineGraph} {u x : String}
    (hno : ∀ e ∈ g.edges, e.fromName ≠ u) (h : Reach g u x) : x = u := by
  cases h with
  | refl _ => rfl
  | step he _ =>
    obtain ⟨e, he2, hf, _⟩ := he
    exact absurd hf (hno e he2)

/-- C5 counterexample (against the claim as stated): this graph has a
node (`"B"`) unreachable from the entry, yet `ValidateGraph` returns the
cycle-detected error - not an error naming an unreachable stage -
because the cycle check runs first and scans unreachable nodes too. -/
theorem ValidateGraph_cycle_masks_unreachable :
    (¬ Reach gCycleUnreachable "A" "B") ∧
    ValidateGraph gCycleUnreachable = some cycleDetectedError ∧
    cycleDetectedError ≠ ⟨"graph validation failed", unreachableMsg "B"⟩ ∧
    cycleDetectedError ≠ ⟨"graph validation failed", unreachableMsg "C"⟩ := by
  refine ⟨?_, by decide, by decide, by decide⟩
  intro h
  have := reach_from_no_outputs (g := gCycleUnreachable) (by decide) h
  exact absurd this (by decide)

/-- Acyclic two-node cycle graph used for clause 2 of the witness. -/
def gCycleAB : PipelineGraph :=
  ⟨[("A", plainNode), ("B", plainNode)],
    [⟨"A", "B", none⟩, ⟨"B", "A", none⟩], "A", ["B"]⟩

/-- Entry `A`, edge `A → B`, and an orphan node `C`. -/
def gUnreach : PipelineGraph :=
  ⟨[("A", plainNode), ("B", plainNode), ("C", plainNode)],
    [⟨"A", "B", none⟩], "A", ["B"]⟩

theorem ValidateGraph_ordered_characterization_witness :
    ValidateGraph gAB = none ∧
    ValidateGraph gCycleAB = some cycleDetectedError ∧
    ValidateGraph gUnreach =
      some ⟨"graph validation failed", unreachableMsg "C"⟩ := by
  refine ⟨?_, ?_, ?_⟩
  · refine (ValidateGraph_ordered_characterization gAB (by decide)
      ("A", plainNode) rfl).1 ?_ ?_ ?_
    · intro hcyc
      have hnone : detectCycles gAB = none := by decide
      exact absurd hcyc (acyclic_of_detectCycles (by decide) hnone)
    · intro q hq
      refine reach_of_dfs gAB "A" q.1 (by decide) ["B", "A"] (by decide) ?_
      rcases List.mem_cons.mp hq with h | h
      · subst h; decide
      · rcases List.mem_cons.mp h with h2 | h2
        · subst h2; decide
        · simp at h2
    · intro e he su sd h1 h2
      have he2 : e = ⟨"A", "B", none⟩ := by simpa [gAB] using he
      subst he2
      have hsu : stageOfNode gAB "A" = some ⟨[], []⟩ := rfl
      rw [hsu] at h1
      cases h1
      exact Or.inr (Or.inl rfl)
  · refine (ValidateGraph_ordered_characterization gCycleAB (by decide)
      ("A", plainNode) rfl).2.1 ?_
    exact ⟨"A", "B", ⟨⟨"A", "B", none⟩, by simp [gCycleAB], rfl, rfl⟩,
      Reach.step ⟨⟨"B", "A", none⟩, by simp [gCycleAB], rfl, rfl⟩
        (Reach.refl "A")⟩
  · have hnc : ¬ Cyclic gUnreach := by
      have hnone : detectCycles gUnreach = none := by decide
      exact acyclic_of_detectCycles (by decide) hnone
    have hnrC : ¬ Reach gUnreach "A" "C" :=
      not_reach_of_dfs gUnreach "A" "C" (by decide) ["B", "A"] (by decide)
        (by decide)
    obtain ⟨name, ⟨nd, hmem⟩, hnr, hval⟩ :=
      (ValidateGraph_ordered_characterization gUnreach (by decide)
        ("A", plainNode) rfl).2.2 hnc ⟨("C", plainNode), by simp [gUnreach],
          hnrC⟩
    have hname : name = "C" := by
      simp only [gUnreach, List.mem_cons, Prod.mk.injEq,
        List.not_mem_nil, or_false] at hmem
      rcases hmem with ⟨h1, -⟩ | ⟨h1, -⟩ | ⟨h1, -⟩
      · subst h1; exact absurd (Reach.refl "A") hnr
      · subst h1
        exact absurd (Reach.step ⟨⟨"A", "B", none⟩, by simp [gUnreach],
          rfl, rfl⟩ (Reach.refl "B")) hnr
      · exact h1
    rw [hname] at hval
    exact hval

/-- Typed graph: `u` outputs `{stt, llm}`, edge filter `{llm}`, `v`
accepts `{llm}`. -/
def gTyped : PipelineGraph :=
  ⟨[("u", ⟨some ⟨[], [EventTypeSTT, EventTypeLLM]⟩, none, none⟩),
    ("v", ⟨some ⟨[EventTypeLLM], []⟩, none, none⟩)],
    [⟨"u", "v", some [EventTypeLLM]⟩], "u", ["v"]⟩

theorem validateTypeCompatibility_characterization_witness :
    validateTypeCompatibility gTyped = none := by
  refine (validateTypeCompatibility_characterization gTyped (by decide)).1.mpr ?_
  intro e he su sd h1 h2
  have he2 : e = ⟨"u", "v", some [EventTypeLLM]⟩ := by simpa [gTyped] using he
  subst he2
  have hsu : stageOfNode gTyped "u" =
      some ⟨[], [EventTypeSTT, EventTypeLLM]⟩ := rfl
  have hsd : stageOfNode gTyped "v" = some ⟨[EventTypeLLM], []⟩ := rfl
  rw [hsu] at h1
  cases h1
  rw [hsd] at h2
  cases h2
  decide
